import Mathlib

/-!
Verification of the saturation-prover core (foras).

This file gives a shallow embedding of the Rust sources
- src/data/ordering.rs   (the LRPO term ordering used by the prover),
- src/inference/lrpo.rs  (a simplified weight-based LRPO variant),
- src/inference/prover.rs (configuration, clause bookkeeping, the
  given-clause selection discipline, clause processing and the
  saturation-loop skeleton),
and proves or refutes the frozen behavioural claims about them.

Machine integers: the Rust code stores clause weights in i32 and uses
i32::MAX as a sentinel during selection; weights are modelled as Int
with the explicit constant i32MAX.  Recursion-depth caps (a `depth`
counter incremented on every recursive call, with an early `false` /
`Incomparable` return once the cap is exceeded) are modelled by a fuel
argument `fuel = cap + 1 - depth`, so a top-level call (depth 0) runs at
fuel `cap + 1` and a call that the Rust guard rejects runs at fuel 0.

Code of the repository that is not part of the source snapshot (the
data-module containers, the weight table, and the inference/simplification
subroutines called by the prover) is modelled from the specification; each
such definition carries a doc comment starting with `Modelled from the
spec:`.
-/

/-- First-order terms: a variable id or an application of an interned
symbol to arguments (src/data: `Term::Variable { id }` /
`Term::Application { symbol, args }`).  Symbol and variable ids are
interned integers, modelled as `Nat`. -/
inductive Term where
  | var : Nat → Term
  | app : Nat → List Term → Term

mutual
/-- Number of nodes of a term (used only for termination measures and
fuel bounds in this development; not part of the Rust code). -/
def termSize : Term → Nat
  | .var _ => 1
  | .app _ args => 1 + termListSize args
/-- Total size of a list of terms. -/
def termListSize : List Term → Nat
  | [] => 0
  | t :: ts => termSize t + termListSize ts
end

mutual
/-- Structural identity of terms (src/data/ordering.rs `terms_identical`):
equal variable ids, or equal symbols with pairwise-identical argument
lists. -/
def termsIdentical : Term → Term → Bool
  | .var x, .var y => x == y
  | .app s1 a1, .app s2 a2 => s1 == s2 && argsIdentical a1 a2
  | _, _ => false
/-- Pairwise structural identity of argument lists (the
`args1.len() == args2.len()` check together with the zipped `all` of
`terms_identical`). -/
def argsIdentical : List Term → List Term → Bool
  | [], [] => true
  | t :: ts, u :: us => termsIdentical t u && argsIdentical ts us
  | _, _ => false
end

mutual
theorem termsIdentical_iff : ∀ t u : Term, termsIdentical t u = true ↔ t = u
  | .var x, .var y => by simp [termsIdentical]
  | .var _, .app _ _ => by simp [termsIdentical]
  | .app _ _, .var _ => by simp [termsIdentical]
  | .app s1 a1, .app s2 a2 => by
    simp [termsIdentical, argsIdentical_iff a1 a2]
theorem argsIdentical_iff : ∀ a b : List Term, argsIdentical a b = true ↔ a = b
  | [], [] => by simp [argsIdentical]
  | [], _ :: _ => by simp [argsIdentical]
  | _ :: _, [] => by simp [argsIdentical]
  | t :: ts, u :: us => by
    simp [argsIdentical, termsIdentical_iff t u, argsIdentical_iff ts us]
end

instance : DecidableEq Term := fun t u =>
  decidable_of_iff (termsIdentical t u = true) (termsIdentical_iff t u)

mutual
/-- Occurrence check body (src/data/ordering.rs `occurs_in_impl`): a term
`v` occurs in `t` if it is identical to `t` or occurs in some argument. -/
def occursInImpl (v : Term) : Term → Bool
  | .var w => termsIdentical v (.var w)
  | .app s args => termsIdentical v (.app s args) || occursInArgs v args
/-- Occurrence check over an argument list. -/
def occursInArgs (v : Term) : List Term → Bool
  | [] => false
  | t :: ts => occursInImpl v t || occursInArgs v ts
end

/-- src/data/ordering.rs `occurs_in`: only a variable can occur; any other
first argument yields `false`. -/
def occursIn (v t : Term) : Bool :=
  match v with
  | .var _ => occursInImpl v t
  | _ => false

/-- Precedence comparison result (src/data/ordering.rs `Precedence`). -/
inductive Prec where
  | sameAs
  | greaterThan
  | lessThan
  | notComparable
deriving DecidableEq

/-- src/data/ordering.rs `get_precedence`: lookup of a symbol in the
explicit precedence list (`None` when the symbol has no precedence). -/
def getPrecedence (prec : List (Nat × Nat)) (s : Nat) : Option Nat :=
  (prec.find? (fun p => p.1 == s)).map Prod.snd

/-- src/data/ordering.rs `sym_precedence`: identical symbols are `SameAs`;
if both have explicit precedence the lower value wins (lower value =
higher precedence); otherwise `NotComparable`. -/
def symPrecedence (prec : List (Nat × Nat)) (s1 s2 : Nat) : Prec :=
  if s1 == s2 then .sameAs
  else
    match getPrecedence prec s1, getPrecedence prec s2 with
    | some p1, some p2 =>
      if p1 < p2 then .greaterThan else if p1 > p2 then .lessThan else .sameAs
    | _, _ => .notComparable

/-- src/data/ordering.rs `lrpo_lex`: lexicographic comparison of the two
argument lists of same-symbol applications.  `gt` is the recursive
`lrpo_gt` at depth + 1.  Identical leading argument pairs are skipped; at
the first difference, if the left argument is greater the whole left term
must dominate every remaining right argument, otherwise some remaining
left argument must be `≥` the whole right term.  An empty remainder
(identical argument lists) yields `false`. -/
def lrpoLexAux (gt : Term → Term → Bool) (t1 t2 : Term) :
    List Term → List Term → Bool
  | a :: as, b :: bs =>
    if termsIdentical a b then lrpoLexAux gt t1 t2 as bs
    else if gt a b then bs.all (fun x => gt t1 x)
    else as.any (fun y => termsIdentical y t2 || gt y t2)
  | _, _ => false

/-- src/data/ordering.rs `lrpo_gt`, with the depth counter replaced by
fuel (`fuel = MAX_LRPO_DEPTH + 1 - depth`, `MAX_LRPO_DEPTH = 100`): the
guard `depth > MAX_LRPO_DEPTH → false` is the fuel-0 case.  A variable is
never greater; an application is greater than a variable iff the variable
occurs in it; same-symbol same-arity applications are compared
lexicographically; otherwise the symbol precedence decides: `GreaterThan`
requires domination of every right argument, `LessThan`/`NotComparable`
require some left argument `≥` the right term, and `SameAs` (distinct
symbols of equal precedence, the stubbed multiset case) yields `false`. -/
def lrpoGtF (prec : List (Nat × Nat)) : Nat → Term → Term → Bool
  | 0, _, _ => false
  | n+1, t1, t2 =>
    match t1, t2 with
    | .var _, _ => false
    | .app _ _, .var _ => occursIn t2 t1
    | .app f sargs, .app g targs =>
      if f == g && sargs.length == targs.length then
        lrpoLexAux (lrpoGtF prec n) t1 t2 sargs targs
      else
        match symPrecedence prec f g with
        | .sameAs => false
        | .greaterThan => targs.all (fun ta => lrpoGtF prec n t1 ta)
        | .lessThan => sargs.any (fun sa => termsIdentical sa t2 || lrpoGtF prec n sa t2)
        | .notComparable => sargs.any (fun sa => termsIdentical sa t2 || lrpoGtF prec n sa t2)

/-- src/data/ordering.rs `LRPO::greater`: `lrpo_gt(s, t, 0)`, i.e. the
fuel-version at fuel `MAX_LRPO_DEPTH + 1 = 101`. -/
def lrpoGreater (prec : List (Nat × Nat)) (s t : Term) : Bool :=
  lrpoGtF prec 101 s t

/-- src/data/ordering.rs `LRPO::greater_or_equal`. -/
def lrpoGreaterOrEqual (prec : List (Nat × Nat)) (s t : Term) : Bool :=
  termsIdentical s t || lrpoGtF prec 101 s t

/-- Comparison result of the simplified lrpo module
(src/inference/lrpo.rs `Ordering`). -/
inductive Ordering4 where
  | greater
  | less
  | equal
  | incomparable
deriving DecidableEq

/-- src/inference/lrpo.rs `terms_equal_with_depth`, depth counter replaced
by fuel (`fuel = MAX_LRPO_DEPTH + 1 - depth` with `MAX_LRPO_DEPTH = 500`):
structural equality that gives up (returns `false`) beyond the depth
cap. -/
def termsEqualF : Nat → Term → Term → Bool
  | 0, _, _ => false
  | _+1, .var x, .var y => x == y
  | n+1, .app s1 a1, .app s2 a2 =>
    s1 == s2 && a1.length == a2.length
      && (a1.zip a2).all (fun p => termsEqualF n p.1 p.2)
  | _+1, _, _ => false

/-- src/inference/lrpo.rs `occurs_in_with_depth` as a fuel function: the
term is compared with the variable at the current depth, the arguments
are searched at depth + 1, and the search gives up beyond the cap. -/
def occursInDF : Nat → Term → Term → Bool
  | 0, _, _ => false
  | n+1, v, t =>
    if termsEqualF (n+1) v t then true
    else
      match t with
      | .var _ => false
      | .app _ args => args.any (fun a => occursInDF n v a)

/-- src/inference/lrpo.rs `term_weight_with_depth` as a fuel function:
symbol count of a term, defaulting to 1 beyond the depth cap. -/
def termWeightF : Nat → Term → Nat
  | 0, _ => 1
  | _+1, .var _ => 1
  | n+1, .app _ args => 1 + (args.map (fun a => termWeightF n a)).sum

/-- src/inference/lrpo.rs `compare_same_symbol_with_depth`, inner loop
(the function is entered at the same depth as its caller, so the caller
passes the recursive comparison at depth + 1 as `lr` and structural
equality at the current depth as `teq`): skip equal leading argument
pairs; at the first difference, `Greater` requires the whole left term to
dominate every remaining right argument, `Less` scans the remaining left
arguments for one `≥` the whole right term (returning `Greater` if found,
else `Less`), anything else is `Incomparable`.  Exhausted lists mean the
argument lists were equal. -/
def cmpSameSymAux (lr : Term → Term → Ordering4) (teq : Term → Term → Bool)
    (t1 t2 : Term) : List Term → List Term → Ordering4
  | a :: as, b :: bs =>
    if teq a b then cmpSameSymAux lr teq t1 t2 as bs
    else
      match lr a b with
      | .greater =>
        if bs.all (fun x => lr t1 x == Ordering4.greater) then .greater
        else .incomparable
      | .less =>
        if as.any (fun y => lr y t2 == Ordering4.greater || lr y t2 == Ordering4.equal)
        then .greater else .less
      | _ => .incomparable
  | [], [] => .equal
  | _, _ => .incomparable

/-- src/inference/lrpo.rs `lrpo_with_depth`, depth counter replaced by
fuel (cap 500, so the top-level call runs at fuel 501): variables are
`Equal` to themselves and otherwise `Less`; an application is `Greater`
than a variable occurring in it and otherwise `Incomparable`; same-symbol
applications are compared argument-wise; different symbols are compared
by symbol-count weight (computed from depth 0, i.e. fresh fuel 501).
`occurs_in` and `terms_equal` at the top of a case restart from depth 0
in the Rust code and therefore run at full fuel 501 here. -/
def lrpoDF : Nat → Term → Term → Ordering4
  | 0, _, _ => .incomparable
  | n+1, t1, t2 =>
    match t1, t2 with
    | .var _, _ => if termsEqualF 501 t1 t2 then .equal else .less
    | .app _ _, .var _ => if occursInDF 501 t2 t1 then .greater else .incomparable
    | .app s1 a1, .app s2 a2 =>
      if s1 == s2 then
        if a1.length == a2.length then
          cmpSameSymAux (lrpoDF n) (termsEqualF (n+1)) t1 t2 a1 a2
        else .incomparable
      else
        let w1 := termWeightF 501 t1
        let w2 := termWeightF 501 t2
        if w1 > w2 then
          if a2.all (fun arg => lrpoDF n t1 arg == Ordering4.greater) then .greater
          else .incomparable
        else if w1 < w2 then
          if a1.any (fun arg => lrpoDF n arg t2 == Ordering4.greater
              || lrpoDF n arg t2 == Ordering4.equal)
          then .greater else .less
        else .incomparable

/-- src/inference/lrpo.rs `lrpo_greater`: `lrpo_with_depth(t1, t2, 0) == Greater`. -/
def lrpoGreaterSimple (t1 t2 : Term) : Bool :=
  lrpoDF 501 t1 t2 == Ordering4.greater

/-- The value of i32::MAX, used as the selection sentinel and the
saturation bound for clause weights. -/
def i32MAX : Int := 2147483647

/-- The value of i32::MIN. -/
def i32MIN : Int := -2147483648

/-- Modelled from the spec: §4.4 says weight arithmetic "saturates at
i32::MAX" (the weight-table code is not under src/); addition clamped to
the i32 range. -/
def satAdd (a b : Int) : Int :=
  if a + b > i32MAX then i32MAX else if a + b < i32MIN then i32MIN else a + b

/-- A signed literal (src/data: `Literal { sign, atom }`; `sign = true`
is positive). -/
structure Literal where
  sign : Bool
  atom : Term
deriving DecidableEq

/-- A clause (src/data: ordered literal list, parent `ClauseId`s and the
cached `pick_weight`; the `attributes` origin tags are only read by
diagnostic prints in the code under src/ and are omitted). -/
structure Clause where
  literals : List Literal
  parents : List Nat
  pick_weight : Int
deriving DecidableEq

/-- `Clause::new(literals)`: fresh clause with no parents; the cached
weight starts at zero until an insertion routine computes it. -/
def Clause.mk0 (lits : List Literal) : Clause :=
  { literals := lits, parents := [], pick_weight := 0 }

/-- Modelled from the spec: §3/§4.4 `WeightTable` (not under src/): a
per-symbol weight list with a default. -/
structure WeightTable where
  weights : List (Nat × Int)
  dfl : Int

/-- Symbol weight lookup, falling back to the default. -/
def symWeight (wt : WeightTable) (s : Nat) : Int :=
  (((wt.weights.find? (fun p => p.1 == s)).map Prod.snd).getD wt.dfl)

mutual
/-- Modelled from the spec: §4.4 `weight(Term)` = symbol weight + sum of
child weights, a variable weighing the default; sums saturate. -/
def weightTerm (wt : WeightTable) : Term → Int
  | .var _ => wt.dfl
  | .app s args => satAdd (symWeight wt s) (weightArgs wt args)
/-- Saturating sum of the weights of a list of terms. -/
def weightArgs (wt : WeightTable) : List Term → Int
  | [] => 0
  | t :: ts => satAdd (weightTerm wt t) (weightArgs wt ts)
end

/-- Modelled from the spec: §4.4 `weight(Clause)` sums the literal atom
weights. -/
def weightClause (wt : WeightTable) (c : Clause) : Int :=
  c.literals.foldl (fun acc l => satAdd acc (weightTerm wt l.atom)) 0

/-- An oriented rewrite rule (src/inference `Demodulator`, not under
src/; spec §3: `(lhs → rhs)`). -/
structure Demodulator where
  lhs : Term
  rhs : Term
deriving DecidableEq

mutual
/-- Variables of a term (support definition for the spec-modelled
demodulator extraction). -/
def varsOf : Term → List Nat
  | .var v => [v]
  | .app _ args => varsOfList args
/-- Variables of a list of terms. -/
def varsOfList : List Term → List Nat
  | [] => []
  | t :: ts => varsOf t ++ varsOfList ts
end

/-- Modelled from the spec: §4.5 `extract_demodulator` (not under src/)
succeeds only on a positive unit equality `s = t` whose one side is
strictly LRPO-greater and contains all variables of the other; the
greater side becomes `lhs`.  The equal-weight tie-break fallback the spec
mentions is not modelled (no claim exercises it). -/
def extractDemodulator (c : Clause) (eqSym : Nat) (prec : List (Nat × Nat)) :
    Option Demodulator :=
  match c.literals with
  | [l] =>
    match l.sign, l.atom with
    | true, .app s [a, b] =>
      if s == eqSym then
        if lrpoGreater prec a b && (varsOf b).all (fun v => v ∈ varsOf a) then
          some { lhs := a, rhs := b }
        else if lrpoGreater prec b a && (varsOf a).all (fun v => v ∈ varsOf b) then
          some { lhs := b, rhs := a }
        else none
      else none
    | _, _ => none
  | _ => none

mutual
/-- Modelled from the spec: one innermost-leftmost rewrite step with a
single demodulator, with matching restricted to syntactic identity of
the left-hand side (the general one-sided matcher is not under src/).
Returns the rewritten term, or `none` when no redex exists. -/
def rewriteOnce (d : Demodulator) : Term → Option Term
  | .var v => if Term.var v = d.lhs then some d.rhs else none
  | .app s args =>
    match rewriteOnceArgs d args with
    | some args2 => some (.app s args2)
    | none => if Term.app s args = d.lhs then some d.rhs else none
/-- Innermost-leftmost rewrite step inside an argument list. -/
def rewriteOnceArgs (d : Demodulator) : List Term → Option (List Term)
  | [] => none
  | t :: ts =>
    match rewriteOnce d t with
    | some t2 => some (t2 :: ts)
    | none =>
      match rewriteOnceArgs d ts with
      | some ts2 => some (t :: ts2)
      | none => none
end

/-- Modelled from the spec: §4.5 `demodulate` – rewrite with the first
applicable demodulator until a fixed point or the iteration cap. -/
def demodTerm (demods : List Demodulator) : Nat → Term → Term
  | 0, t => t
  | n+1, t =>
    match demods.firstM (fun d => rewriteOnce d t) with
    | some t2 => demodTerm demods n t2
    | none => t

/-- Modelled from the spec: §4.5 `demodulate_clause_with_limit` (not
under src/) normalises every literal atom. -/
def demodulateClauseWithLimit (c : Clause) (demods : List Demodulator)
    (maxIter : Nat) : Clause :=
  { c with literals := c.literals.map (fun l => { l with atom := demodTerm demods maxIter l.atom }) }

/-- Modelled from the spec: §4.6 – subsumption restricted to the identity
substitution (the matching-based subsumption engine is not under src/):
every literal of `c` occurs syntactically in `other`. -/
def literalsContained (c other : Clause) : Bool :=
  c.literals.all (fun l => other.literals.contains l)

/-- Modelled from the spec: §4.6 `forward_subsumed` – some existing
clause subsumes the new clause. -/
def forwardSubsumed (newC : Clause) (refs : List Clause) : Bool :=
  refs.any (fun c => literalsContained c newC)

/-- Modelled from the spec: §4.6 `forward_subsumed_ancestor` – the
ancestor-aware variant; proof-ancestry depth is not representable in a
single clause value, so the tie-break is not modelled and the matching
part coincides with `forwardSubsumed`. -/
def forwardSubsumedAncestor (newC : Clause) (refs : List Clause) : Bool :=
  refs.any (fun c => literalsContained c newC)

/-- Modelled from the spec: §4.6 `back_subsumed` – the existing clauses
subsumed by the new clause. -/
def backSubsumed (newC : Clause) (refs : List Clause) : List Clause :=
  refs.filter (fun c => literalsContained newC c)

/-- Merge the first duplicated literal with its later duplicate
(support definition for the spec-modelled factoring). -/
def removeFirstDup : List Literal → Option (List Literal)
  | [] => none
  | l :: ls =>
    if ls.contains l then some (l :: ls.erase l)
    else
      match removeFirstDup ls with
      | some ls2 => some (l :: ls2)
      | none => none

/-- Modelled from the spec: §4.7 factoring (not under src/), restricted
to the identity unifier: merge the first pair of same-sign literals with
identical atoms; no such pair means no factors. -/
def factorClause (c : Clause) : List Clause :=
  match removeFirstDup c.literals with
  | some lits => [{ c with literals := lits }]
  | none => []

/-- Hint parameters (src/inference `HintData`, not under src/; spec §3:
six parameters controlling matching thresholds and additive
adjustments). -/
structure HintData where
  fsub_wt : Int
  fsub_add_wt : Int
  bsub_wt : Int
  bsub_add_wt : Int
  equiv_wt : Int
  equiv_add_wt : Int

/-- A hint clause together with its parameters (spec §3 `HintsList`
entry). -/
structure HintEntry where
  clause : Clause
  data : HintData

/-- Modelled from the spec: §4.9 `adjust_weight_with_hints` (not under
src/) "alters `pick_weight` when the clause forward-subsumes, is
subsumed by, or is subsumption-equivalent to a hint", additively (§9).
Only the equivalence branch is modelled, with matching restricted to the
identity substitution as in the other subsumption models: on the first
equivalent hint the configured additive equivalence adjustment is added
to the cached weight. -/
def adjustWeightWithHints (c : Clause) (hints : List HintEntry) : Clause :=
  match hints.find? (fun h =>
      literalsContained c h.clause && literalsContained h.clause c) with
  | some h => { c with pick_weight := satAdd c.pick_weight h.data.equiv_add_wt }
  | none => c

/-- Modelled from the spec: §4.9 `hint_keep_test` (not under src/)
"bypasses the max-weight discard when enabled and the clause subsumes or
equivalent-matches a hint". -/
def hintKeepTest (c : Clause) (hints : List HintEntry)
    (keepSubsumers keepEquivalents : Bool) : Bool :=
  (keepSubsumers && hints.any (fun h => literalsContained c h.clause))
    || (keepEquivalents && hints.any (fun h =>
          literalsContained c h.clause && literalsContained h.clause c))

/-- Result of forward unit deletion (src/inference, not under src/):
the simplified clause and the ids of the unit clauses used. -/
structure UnitDeleted where
  clause : Clause
  parents : List Nat

/-- Search for the first literal deletable against a unit partner
(support for the spec-modelled unit deletion). -/
def fudAux (pairs : List (Clause × Option Nat)) :
    List Literal → Option (List Literal × List Nat)
  | [] => none
  | l :: ls =>
    match pairs.find? (fun p =>
        match p.1.literals with
        | [l2] => l2.atom == l.atom && l2.sign != l.sign
        | _ => false) with
    | some p => some (ls, p.2.toList)
    | none =>
      match fudAux pairs ls with
      | some (ls2, ps) => some (l :: ls2, ps)
      | none => none

/-- Modelled from the spec: §4.8 `forward_unit_deletion` (not under
src/): if a unit clause matches a literal of the new clause with
opposite sign (matching restricted to identity here), that literal is
removed and the unit's id is recorded as a parent; `none` when no
literal can be deleted. -/
def forwardUnitDeletion (newC : Clause) (usable : List Clause)
    (ids : List (Option Nat)) : Option UnitDeleted :=
  match fudAux (usable.zip ids) newC.literals with
  | some (lits, ps) => some { clause := { newC with literals := lits }, parents := ps }
  | none => none

/-- Modelled from the spec: the hint-weight sentinel
`crate::inference::MAX_WEIGHT` (not under src/); its concrete value does
not matter to any claim and it is modelled as i32::MAX. -/
def inferenceMaxWeight : Int := i32MAX

/-- src/inference/prover.rs `ProverConfig` (lines 40–108), field for
field; `usize`/`u64` fields are `Nat`, `i32` fields are `Int`. -/
structure ProverConfig where
  max_clauses : Nat
  max_given : Nat
  pick_given_ratio : Nat
  max_seconds : Nat
  auto_mode : Bool
  use_hyper_res : Bool
  use_binary_res : Bool
  use_para_into : Bool
  use_para_from : Bool
  para_from_left : Bool
  para_from_right : Bool
  para_into_left : Bool
  para_into_right : Bool
  use_demod : Bool
  use_back_demod : Bool
  use_factor : Bool
  use_ur_res : Bool
  use_linked_ur_res : Bool
  use_subsumption : Bool
  use_ancestor_subsume : Bool
  use_unit_deletion : Bool
  max_weight : Int
  fsub_hint_wt : Int
  fsub_hint_add_wt : Int
  bsub_hint_wt : Int
  bsub_hint_add_wt : Int
  equiv_hint_wt : Int
  equiv_hint_add_wt : Int
  keep_hint_subsumers : Bool
  keep_hint_equivalents : Bool
  max_clauses_per_given : Nat
  max_demod_iterations : Nat
  max_memory_bytes : Nat

/-- src/inference/prover.rs `impl Default for ProverConfig`
(lines 110–148), value for value. -/
def defaultConfig : ProverConfig :=
  { max_clauses := 10000
    max_given := 1000
    pick_given_ratio := 4
    max_seconds := 0
    auto_mode := false
    use_hyper_res := false
    use_binary_res := true
    use_para_into := false
    use_para_from := false
    para_from_left := true
    para_from_right := true
    para_into_left := true
    para_into_right := true
    use_demod := false
    use_back_demod := false
    use_factor := false
    use_ur_res := false
    use_linked_ur_res := false
    use_subsumption := false
    use_ancestor_subsume := false
    use_unit_deletion := false
    max_weight := i32MAX
    fsub_hint_wt := inferenceMaxWeight
    fsub_hint_add_wt := 0
    bsub_hint_wt := inferenceMaxWeight
    bsub_hint_add_wt := -1000
    equiv_hint_wt := inferenceMaxWeight
    equiv_hint_add_wt := 0
    keep_hint_subsumers := false
    keep_hint_equivalents := false
    max_clauses_per_given := 0
    max_demod_iterations := 100
    max_memory_bytes := 0 }

/-- src/inference/prover.rs `Prover` state: the arena is the append-only
clause store (spec §4.3, containers not under src/: `insert` appends and
returns the old length as id, `get` is positional lookup, in-place
mutation is positional update), `sos` and `usable` are `ClauseList`s of
ids (push appends, pop removes the front, remove deletes at an index),
and the remaining fields mirror the struct fields of `Prover`. -/
structure ProverState where
  config : ProverConfig
  symbols : List (Nat × String)
  arena : List Clause
  sos : List Nat
  usable : List Nat
  eq_symbol : Option Nat
  demodulators : List Demodulator
  weight_table : WeightTable
  lrpo : List (Nat × Nat)
  hints : List HintEntry
  clauses_generated : Nat
  clauses_kept : Nat
  given_count : Nat
  pick_count : Nat
  proof_from_back_demod : Option Nat

/-- Arena insertion (spec §4.3 `insert(Clause) → ClauseId`): append, the
new id being the previous length. -/
def arenaInsert (st : ProverState) (c : Clause) : ProverState × Nat :=
  ({ st with arena := st.arena ++ [c] }, st.arena.length)

/-- src/inference/prover.rs `Prover::add_sos` (lines 341–355): cache the
structural weight, adjust it against the hints when the hint list is
non-empty, insert into the arena, push the id onto SOS and count the
clause as kept.  No tautology or weight filtering happens here. -/
def addSos (st : ProverState) (c : Clause) : ProverState × Nat :=
  let c1 := { c with pick_weight := weightClause st.weight_table c }
  let c2 := if st.hints.isEmpty then c1 else adjustWeightWithHints c1 st.hints
  let id := st.arena.length
  ({ st with
      arena := st.arena ++ [c2]
      sos := st.sos ++ [id]
      clauses_kept := st.clauses_kept + 1 }, id)

/-- src/inference/prover.rs `Prover::add_usable` (lines 427–435): cache
the weight, insert, push onto usable, count as kept (no hint adjustment
and no filtering). -/
def addUsable (st : ProverState) (c : Clause) : ProverState × Nat :=
  let c1 := { c with pick_weight := weightClause st.weight_table c }
  let id := st.arena.length
  ({ st with
      arena := st.arena ++ [c1]
      usable := st.usable ++ [id]
      clauses_kept := st.clauses_kept + 1 }, id)

/-- src/inference/prover.rs `Prover::try_keep_clause` (lines 392–424):
cache the weight, adjust against hints when present, discard when a
finite `max_weight` is exceeded and the hint keep-test fails, otherwise
insert into the arena, push onto SOS and count as kept.  Returns whether
the clause was kept. -/
def tryKeepClause (st : ProverState) (c : Clause) : ProverState × Bool :=
  let c1 := { c with pick_weight := weightClause st.weight_table c }
  let c2 := if st.hints.isEmpty then c1 else adjustWeightWithHints c1 st.hints
  if st.config.max_weight < i32MAX && c2.pick_weight > st.config.max_weight
      && !(hintKeepTest c2 st.hints st.config.keep_hint_subsumers
            st.config.keep_hint_equivalents) then
    (st, false)
  else
    let id := st.arena.length
    ({ st with
        arena := st.arena ++ [c2]
        sos := st.sos ++ [id]
        clauses_kept := st.clauses_kept + 1 }, true)

/-- The accumulator loop of src/inference/prover.rs
`Prover::select_lightest_clause` (lines 448–461): running minimum weight
(initialised to i32::MAX) and its index (initialised to 0), scanning the
SOS ids in order, skipping ids absent from the arena, and updating only
on a strictly smaller cached weight. -/
def findMinIdx (arena : List Clause) (sos : List Nat) : Nat :=
  (sos.enum.foldl (fun acc p =>
      match arena.get? p.2 with
      | some c => if c.pick_weight < acc.1 then (c.pick_weight, p.1) else acc
      | none => acc) (i32MAX, 0)).2

/-- src/inference/prover.rs `Prover::select_lightest_clause`
(lines 443–465): `none` on an empty SOS, otherwise remove and return the
id at the minimising index. -/
def selectLightestClause (st : ProverState) : Option Nat × ProverState :=
  if st.sos.isEmpty then (none, st)
  else
    let idx := findMinIdx st.arena st.sos
    (st.sos.get? idx, { st with sos := st.sos.eraseIdx idx })

/-- `ClauseList::pop` (spec §4.3: FIFO front) applied to SOS, as used by
the selection step of `search`. -/
def sosPop (st : ProverState) : Option Nat × ProverState :=
  match st.sos with
  | [] => (none, st)
  | id :: rest => (some id, { st with sos := rest })

/-- The given-clause selection fragment of src/inference/prover.rs
`Prover::search` (lines 727–741): weight-based selection while
`pick_count < pick_given_ratio`, FIFO otherwise, and in either case
`pick_count` advances modulo `pick_given_ratio + 1` (the update is
written before the branch in the source, computed from the old
counter). -/
def selectGiven (st : ProverState) : Option Nat × ProverState :=
  let byWeight := st.pick_count < st.config.pick_given_ratio
  let st1 := { st with
    pick_count := (st.pick_count + 1) % (st.config.pick_given_ratio + 1) }
  if byWeight then selectLightestClause st1 else sosPop st1

/-- The `t != t` test used by `process_new_clause` (lines 298–316) and
`back_demodulate` (lines 598–614, 630–646): a single negative literal
whose atom is the equality symbol applied to two syntactically equal
arguments. -/
def isRefutedEq (eqSym : Option Nat) (c : Clause) : Bool :=
  match eqSym, c.literals with
  | some e, [l] =>
    !l.sign &&
      (match l.atom with
       | .app s [a, b] => s == e && a == b
       | _ => false)
  | _, _ => false

/-- One of the two textually identical per-clause loops of
src/inference/prover.rs `Prover::back_demodulate` (lines 588–656),
over a given id list: clone the clause, rewrite it with the single new
demodulator, and if the literals changed either record a `t != t` proof
(inserting a fresh empty clause, setting `proof_from_back_demod` and
stopping the whole traversal — the Rust `return`) or write the
simplified clause back in place.  `recompute` distinguishes the SOS loop
(which re-caches `pick_weight` from the new literals) from the usable
loop (which does not).  The Bool result reports the early stop. -/
def backDemodList (recompute : Bool) (d : Demodulator) :
    ProverState → List Nat → ProverState × Bool
  | st, [] => (st, false)
  | st, id :: rest =>
    match st.arena.get? id with
    | none => backDemodList recompute d st rest
    | some c =>
      let simplified := demodulateClauseWithLimit c [d] st.config.max_demod_iterations
      if c.literals ≠ simplified.literals then
        if isRefutedEq st.eq_symbol simplified then
          ({ st with
              arena := st.arena ++ [Clause.mk0 []]
              proof_from_back_demod := some st.arena.length }, true)
        else
          let c2 := if recompute then
              { simplified with pick_weight := weightClause st.weight_table simplified }
            else simplified
          backDemodList recompute d { st with arena := st.arena.set id c2 } rest
      else backDemodList recompute d st rest

/-- src/inference/prover.rs `Prover::back_demodulate` (lines 588–656):
the usable loop (no weight re-caching) followed — unless it stopped
early on a `t != t` proof — by the SOS loop (with weight re-caching). -/
def backDemodulate (st : ProverState) (d : Demodulator) : ProverState :=
  let r := backDemodList false d st st.usable
  if r.2 then r.1 else (backDemodList true d r.1 r.1.sos).1

/-- The entry tautology test of src/inference/prover.rs
`Prover::process_new_clause` (lines 267–281): some pair of literals with
opposite signs and syntactically equal atoms. -/
def hasComplementaryPair : List Literal → Bool
  | [] => false
  | l :: ls =>
    ls.any (fun l2 => l.sign != l2.sign && l.atom == l2.atom)
      || hasComplementaryPair ls

/-- The factoring stage of src/inference/prover.rs
`Prover::process_new_clause` (lines 283–291): when factoring is enabled
and the clause has factors, the first factor replaces the clause. -/
def pncFactorStage (st : ProverState) (c : Clause) : Clause :=
  if st.config.use_factor then
    match factorClause c with
    | [] => c
    | f :: _ => f
  else c

/-- The forward-demodulation stage of `process_new_clause`
(lines 293–296): rewrite when demodulation is on and demodulators
exist. -/
def pncDemodStage (st : ProverState) (c : Clause) : Clause :=
  if st.config.use_demod && !st.demodulators.isEmpty then
    demodulateClauseWithLimit c st.demodulators st.config.max_demod_iterations
  else c

/-- The demodulator-extraction stage of `process_new_clause`
(lines 318–329): when demodulation is on and an equality symbol is set,
try to extract a demodulator from the processed clause; on success,
first back-demodulate the existing clauses (when `use_back_demod`) and
then append the new demodulator. -/
def pncExtractStage (st : ProverState) (c2 : Clause) : ProverState :=
  match st.config.use_demod, st.eq_symbol with
  | true, some e =>
    (match extractDemodulator c2 e st.lrpo with
     | some d =>
       let st1 := if st.config.use_back_demod then backDemodulate st d else st
       { st1 with demodulators := st1.demodulators ++ [d] }
     | none => st)
  | _, _ => st

/-- src/inference/prover.rs `Prover::process_new_clause`
(lines 262–336): discard tautologies (checked first, before any
rewriting); then factoring and forward demodulation; turn a `t != t`
clause into the empty clause; otherwise run the demodulator-extraction
stage and return the processed clause. -/
def processNewClause (st : ProverState) (c : Clause) : ProverState × Option Clause :=
  if hasComplementaryPair c.literals then (st, none)
  else
    let c2 := pncDemodStage st (pncFactorStage st c)
    if isRefutedEq st.eq_symbol c2 then (st, some (Clause.mk0 []))
    else (pncExtractStage st c2, some c2)

/-- src/inference/prover.rs `Prover::is_proof` (lines 242–257): the
empty clause, or a clause all of whose literals are applications of
symbols whose interned name starts with `$Ans`. -/
def isProof (st : ProverState) (c : Clause) : Bool :=
  c.literals.isEmpty ||
    c.literals.all (fun l =>
      match l.atom with
      | .app s _ =>
        (match (st.symbols.find? (fun p => p.1 == s)).map Prod.snd with
         | some name => name.startsWith "$Ans"
         | none => false)
      | _ => false)

/-- src/inference/prover.rs `Prover::is_forward_subsumed`
(lines 498–504). -/
def isForwardSubsumed (st : ProverState) (c : Clause)
    (usableRefs sosRefs : List Clause) : Bool :=
  if st.config.use_ancestor_subsume then
    forwardSubsumedAncestor c usableRefs || forwardSubsumedAncestor c sosRefs
  else
    forwardSubsumed c usableRefs || forwardSubsumed c sosRefs

/-- src/inference/prover.rs `Prover::perform_back_subsumption`
(lines 510–581): no-op unless subsumption is on; otherwise pair each
listed id with its arena clause, select the pairs whose clause the new
clause subsumes (the Rust code goes through `back_subsumed` and recovers
each id by pointer identity of the borrowed reference, which identifies
exactly the pair the reference came from), and remove each collected id
(first occurrence) from its list. -/
def performBackSubsumption (st : ProverState) (newC : Clause) : ProverState :=
  if !st.config.use_subsumption then st
  else
    let usablePairs := st.usable.filterMap (fun id => (st.arena.get? id).map (fun c => (id, c)))
    let sosPairs := st.sos.filterMap (fun id => (st.arena.get? id).map (fun c => (id, c)))
    let uIds := (usablePairs.filter (fun p => literalsContained newC p.2)).map Prod.fst
    let sIds := (sosPairs.filter (fun p => literalsContained newC p.2)).map Prod.fst
    { st with
        usable := uIds.foldl (fun l id => l.erase id) st.usable
        sos := sIds.foldl (fun l id => l.erase id) st.sos }

/-- Outcome of processing one child clause inside a given-clause
iteration: a proof (with the arena id of the inserted proof clause), or
continuation (with whether the child was kept into SOS). -/
inductive ChildStep where
  | proofFound (st : ProverState) (emptyId : Nat)
  | next (st : ProverState) (kept : Bool)

/-- The tail of the per-child pipeline of src/inference/prover.rs
`Prover::search` (binary-resolution loop, lines 1000–1027): re-check for
a tautology (unit deletion may have created one), forward-subsumption
test against the usable and SOS snapshots when subsumption is on, then
back-subsumption and the keep/discard decision of `try_keep_clause`. -/
def processChildTail (st : ProverState) (usableClauses sosSnapshot : List Clause)
    (fc : Clause) : ChildStep :=
  if hasComplementaryPair fc.literals then .next st false
  else if st.config.use_subsumption
      && isForwardSubsumed st fc usableClauses sosSnapshot then
    .next st false
  else
    let st1 := performBackSubsumption st fc
    let r := tryKeepClause st1 fc
    .next r.1 r.2

/-- The per-child body of the binary-resolution loop of
src/inference/prover.rs `Prover::search` (lines 946–1028): count the
child as generated, run `process_new_clause` (discarding tautologies),
return a proof when the processed clause is empty or answer-only
(inserting it into the arena and counting it as kept), apply forward
unit deletion when enabled (appending the unit parents, and again
returning a proof if the clause became empty), and finish with
`processChildTail`.  The hyperresolution loop (lines 843–926) has the
same per-child body. -/
def processOneChild (st0 : ProverState) (usableClauses : List Clause)
    (usableIds : List (Option Nat)) (sosSnapshot : List Clause)
    (child : Clause) : ChildStep :=
  let st := { st0 with clauses_generated := st0.clauses_generated + 1 }
  match processNewClause st child with
  | (st1, none) => .next st1 false
  | (st1, some processed) =>
    if isProof st1 processed then
      let r := arenaInsert st1 processed
      .proofFound { r.1 with clauses_kept := r.1.clauses_kept + 1 } r.2
    else
      if st1.config.use_unit_deletion then
        match forwardUnitDeletion processed usableClauses usableIds with
        | some ud =>
          let fc := { ud.clause with parents := ud.clause.parents ++ ud.parents }
          if isProof st1 fc then
            let r := arenaInsert st1 fc
            .proofFound { r.1 with clauses_kept := r.1.clauses_kept + 1 } r.2
          else processChildTail st1 usableClauses sosSnapshot fc
        | none => processChildTail st1 usableClauses sosSnapshot processed
      else processChildTail st1 usableClauses sosSnapshot processed

/-- The per-iteration inference skeleton of src/inference/prover.rs
`Prover::search` (lines 797–1252), reduced to its clause accounting:
each enabled rule block runs to completion, adding the number of
children it generates to `clauses_generated` (each child increments the
counter before being processed), and only after a whole block finishes
is the per-given cap consulted (lines 929–932, 1031–1034, 1082–1085,
1133–1136, 1248–1251): when `max_clauses_per_given > 0` and the
children generated in this iteration have reached it, the remaining
blocks are skipped (`break 'given_clause_iteration`).  The inference
rules themselves are not under src/, so a block is represented by the
number of children it would generate; the function returns the final
`clauses_generated` value. -/
def genAfterBlocks (cap gen0 : Nat) : List Nat → Nat → Nat
  | [], g => g
  | b :: bs, g =>
    let g1 := g + b
    if cap > 0 && g1 - gen0 ≥ cap then g1 else genAfterBlocks cap gen0 bs g1


/-! ## Concrete states and clauses used by witnesses and counterexamples -/

/-- An empty weight table with default weight 1. -/
def emptyWT : WeightTable := { weights := [], dfl := 1 }

/-- A freshly constructed prover over the default configuration
(`Prover::with_config(ProverConfig::default(), …)` with no symbols). -/
def baseState : ProverState :=
  { config := defaultConfig
    symbols := []
    arena := []
    sos := []
    usable := []
    eq_symbol := none
    demodulators := []
    weight_table := emptyWT
    lrpo := []
    hints := []
    clauses_generated := 0
    clauses_kept := 0
    given_count := 0
    pick_count := 0
    proof_from_back_demod := none }

/-- The tautology `P ∨ ¬P` over a nullary predicate symbol 5. -/
def tautClause : Clause :=
  Clause.mk0 [{ sign := true, atom := .app 5 [] }, { sign := false, atom := .app 5 [] }]

/-! ## C5 -/

/-- C5 counterexample: in the default `ProverConfig`, `use_para_into` and
`use_para_from` are `false`, not `true` as the claim states for all six
paramodulation controls. -/
theorem claim_C5_counterexample :
    defaultConfig.use_para_into = false ∧ defaultConfig.use_para_from = false :=
  ⟨rfl, rfl⟩

/-- C5 (amended): in the default `ProverConfig` the four direction
controls `para_from_left`, `para_from_right`, `para_into_left`,
`para_into_right` are `true`, while the rule toggles `use_para_into` and
`use_para_from` default to `false`. -/
theorem claim_C5 :
    defaultConfig.para_from_left = true
      ∧ defaultConfig.para_from_right = true
      ∧ defaultConfig.para_into_left = true
      ∧ defaultConfig.para_into_right = true
      ∧ defaultConfig.use_para_into = false
      ∧ defaultConfig.use_para_from = false :=
  ⟨rfl, rfl, rfl, rfl, rfl, rfl⟩

/-! ## C2 -/

/-- C2 counterexample: `add_sos` performs no tautology check, so loading
the input clause `P ∨ ¬P` inserts it into SOS (it becomes arena id 0 and
SOS becomes `[0]`), contradicting the claim that no operation ever
inserts a clause containing `L` and `¬L` into SOS. -/
theorem claim_C2_counterexample :
    hasComplementaryPair tautClause.literals = true
      ∧ (addSos baseState tautClause).1.sos = [0]
      ∧ ((addSos baseState tautClause).1.arena.get? 0).map Clause.literals
          = some tautClause.literals := by
  refine ⟨rfl, rfl, rfl⟩

/-- C2 (amended): the tautology check lives in `process_new_clause`,
which discards — before doing anything else — every child clause that
syntactically contains a literal and its negation; input loading via
`add_sos`/`add_usable` performs no such check. -/
theorem claim_C2 (st : ProverState) (c : Clause)
    (h : hasComplementaryPair c.literals = true) :
    (processNewClause st c).2 = none := by
  unfold processNewClause
  simp [h]

/-- C2 witness: the tautology `P ∨ ¬P` is discarded by
`process_new_clause` on the fresh prover state. -/
theorem claim_C2_witness :
    hasComplementaryPair tautClause.literals = true
      ∧ (processNewClause baseState tautClause).2 = none :=
  ⟨rfl, claim_C2 baseState tautClause rfl⟩

/-! ## C4 -/

/-- C4 counterexample: with `max_clauses_per_given = 1`, a single
binary-resolution block producing two children generates both of them —
the cap is only consulted after the block — so two children are
generated in one given-clause iteration, exceeding the claimed bound of
at most N = 1. -/
theorem claim_C4_counterexample :
    genAfterBlocks 1 0 [2] 0 = 2 ∧ ¬ (2 : Nat) ≤ 1 := by
  exact ⟨rfl, by decide⟩

/-- Overshoot bound for the per-given cap: once the running count stays
below the cap on entry to each block, the final count overshoots the cap
by less than one block's output. -/
theorem genAfterBlocks_bound (cap gen0 B : Nat) :
    ∀ (blocks : List Nat) (g : Nat), 0 < cap → (∀ b ∈ blocks, b ≤ B) →
      g - gen0 < cap → genAfterBlocks cap gen0 blocks g - gen0 ≤ cap - 1 + B := by
  intro blocks
  induction blocks with
  | nil =>
    intro g hcap _ hg
    have h : genAfterBlocks cap gen0 [] g = g := rfl
    omega
  | cons b bs ih =>
    intro g hcap hb hg
    have hb0 : b ≤ B := hb b (by simp)
    rw [genAfterBlocks]
    split
    · next hcond => omega
    · next hcond =>
      have hlt : g + b - gen0 < cap := by
        simp only [Bool.and_eq_true, decide_eq_true_eq, ge_iff_le, not_and, not_le] at hcond
        exact hcond hcap
      exact ih (g + b) hcap (fun x hx => hb x (by simp [hx])) hlt

/-- C4 (amended): the per-given cap is consulted only between rule
blocks, so a given-clause iteration generates at most
`max_clauses_per_given - 1 + B` children, where `B` bounds the output of
a single rule block — the block during which the cap is reached still
runs to completion, and only the remaining blocks are skipped. -/
theorem claim_C4 (cap B : Nat) (blocks : List Nat) (gen0 : Nat)
    (hcap : 0 < cap) (hB : ∀ b ∈ blocks, b ≤ B) :
    genAfterBlocks cap gen0 blocks gen0 - gen0 ≤ cap - 1 + B :=
  genAfterBlocks_bound cap gen0 B blocks gen0 hcap hB (by simpa using hcap)

/-- C4 witness: with cap 1 and one block of two children, the bound
`cap - 1 + B = 2` is met with equality. -/
theorem claim_C4_witness :
    (0 < 1 ∧ ∀ b ∈ [2], b ≤ 2)
      ∧ genAfterBlocks 1 0 [2] 0 - 0 ≤ 1 - 1 + 2 :=
  ⟨⟨by decide, by decide⟩, claim_C4 1 2 [2] 0 (by decide) (by decide)⟩

/-! ## C1 -/

/-- The cached weight the selection loop sees for an id: the clause's
`pick_weight` when the id is in the arena, the untouched sentinel
i32::MAX otherwise. -/
def wgt (arena : List Clause) (id : Nat) : Int :=
  match arena.get? id with
  | some c => c.pick_weight
  | none => i32MAX

/-- The cached weight of the `j`-th SOS entry, as seen by the selection
loop (spec-side view used to state C1). -/
def sosWeightAt (st : ProverState) (j : Nat) : Int :=
  match st.sos.get? j with
  | some id => wgt st.arena id
  | none => i32MAX

/-- The accumulator recursion underlying `findMinIdx`: weights are
consumed in order, `k` is the index of the next weight, and the
accumulator `(min_weight, min_index)` updates only on strict
improvement. -/
def selMin : List Int → Int × Nat → Nat → Int × Nat
  | [], acc, _ => acc
  | w :: ws, acc, k => selMin ws (if w < acc.1 then (w, k) else acc) (k + 1)

theorem selMin_ge : ∀ (ws : List Int) (aw : Int) (ai k : Nat),
    (∀ w ∈ ws, aw ≤ w) → selMin ws (aw, ai) k = (aw, ai) := by
  intro ws
  induction ws with
  | nil => intro aw ai k _; rfl
  | cons w ws ih =>
    intro aw ai k h
    have hw : ¬ w < aw := not_lt.mpr (h w (by simp))
    rw [selMin, if_neg hw]
    exact ih aw ai (k + 1) (fun x hx => h x (by simp [hx]))

theorem selMin_lt : ∀ (ws : List Int) (aw : Int) (ai k : Nat),
    (∃ w ∈ ws, w < aw) →
    ∃ j, ∃ h : j < ws.length,
      selMin ws (aw, ai) k = (ws.get ⟨j, h⟩, k + j)
      ∧ ws.get ⟨j, h⟩ < aw
      ∧ (∀ i, (hi : i < ws.length) → ws.get ⟨j, h⟩ ≤ ws.get ⟨i, hi⟩)
      ∧ (∀ i, (hi : i < ws.length) → i < j → ws.get ⟨j, h⟩ < ws.get ⟨i, hi⟩) := by
  intro ws
  induction ws with
  | nil => intro aw ai k h; simp at h
  | cons w ws ih =>
    intro aw ai k h
    by_cases hw : w < aw
    · rw [selMin, if_pos hw]
      by_cases hws : ∃ x ∈ ws, x < w
      · obtain ⟨j, hj, heq, hlt, hmin, hfirst⟩ := ih w k (k + 1) hws
        refine ⟨j + 1, by simpa using Nat.succ_lt_succ hj, ?_, ?_, ?_, ?_⟩
        · simpa [Nat.add_assoc, Nat.add_comm 1 j] using heq
        · exact lt_trans (by simpa using hlt) hw
        · intro i hi
          match i with
          | 0 => exact le_of_lt (by simpa using hlt)
          | i + 1 =>
            have hi2 : i < ws.length := by
              simp only [List.length_cons] at hi; omega
            simpa using hmin i hi2
        · intro i hi hij
          match i with
          | 0 => simpa using hlt
          | i + 1 =>
            have hi2 : i < ws.length := by
              simp only [List.length_cons] at hi; omega
            simpa using hfirst i hi2 (by omega)
      · push_neg at hws
        have hstay : selMin ws (w, k) (k + 1) = (w, k) := selMin_ge ws w k (k + 1) hws
        refine ⟨0, by simp, by simpa using hstay, by simpa using hw, ?_, ?_⟩
        · intro i hi
          match i with
          | 0 => simp
          | i + 1 =>
            have hi2 : i < ws.length := by
              simp only [List.length_cons] at hi; omega
            simpa using hws (ws.get ⟨i, hi2⟩) (ws.get_mem i hi2)
        · intro i hi hij; omega
    · rw [selMin, if_neg hw]
      have hws : ∃ x ∈ ws, x < aw := by
        obtain ⟨x, hx, hxlt⟩ := h
        rcases List.mem_cons.mp hx with rfl | hx2
        · exact absurd hxlt hw
        · exact ⟨x, hx2, hxlt⟩
      obtain ⟨j, hj, heq, hlt, hmin, hfirst⟩ := ih aw ai (k + 1) hws
      refine ⟨j + 1, by simpa using Nat.succ_lt_succ hj, ?_, ?_, ?_, ?_⟩
      · simpa [Nat.add_assoc, Nat.add_comm 1 j] using heq
      · simpa using hlt
      · intro i hi
        match i with
        | 0 => exact le_of_lt (lt_of_lt_of_le (by simpa using hlt) (not_lt.mp hw))
        | i + 1 =>
          have hi2 : i < ws.length := by
            simp only [List.length_cons] at hi; omega
          simpa using hmin i hi2
      · intro i hi hij
        match i with
        | 0 => exact lt_of_lt_of_le (by simpa using hlt) (not_lt.mp hw)
        | i + 1 =>
          have hi2 : i < ws.length := by
            simp only [List.length_cons] at hi; omega
          simpa using hfirst i hi2 (by omega)

theorem findMinIdx_fold (arena : List Clause) :
    ∀ (sos : List Nat) (acc : Int × Nat) (k : Nat), acc.1 ≤ i32MAX →
      (List.enumFrom k sos).foldl
        (fun acc p =>
          match arena.get? p.2 with
          | some c => if c.pick_weight < acc.1 then (c.pick_weight, p.1) else acc
          | none => acc) acc
      = selMin (sos.map (wgt arena)) acc k := by
  intro sos
  induction sos with
  | nil => intro acc k _; rfl
  | cons id rest ih =>
    intro acc k hacc
    cases harena : arena.get? id with
    | some c =>
      have hw : wgt arena id = c.pick_weight := by unfold wgt; rw [harena]
      have hstep :
          (match arena.get? (k, id).2 with
            | some c2 => if c2.pick_weight < acc.1 then (c2.pick_weight, (k, id).1) else acc
            | none => acc)
          = if c.pick_weight < acc.1 then (c.pick_weight, k) else acc := by
        show (match arena.get? id with
          | some c2 => if c2.pick_weight < acc.1 then (c2.pick_weight, k) else acc
          | none => acc)
          = if c.pick_weight < acc.1 then (c.pick_weight, k) else acc
        rw [harena]
      rw [List.enumFrom_cons, List.foldl_cons, List.map_cons, selMin, hw, hstep]
      by_cases hlt : c.pick_weight < acc.1
      · rw [if_pos hlt]
        exact ih (c.pick_weight, k) (k + 1) (le_of_lt (lt_of_lt_of_le hlt hacc))
      · rw [if_neg hlt]
        exact ih acc (k + 1) hacc
    | none =>
      have hw : wgt arena id = i32MAX := by unfold wgt; rw [harena]
      have hstep :
          (match arena.get? (k, id).2 with
            | some c2 => if c2.pick_weight < acc.1 then (c2.pick_weight, (k, id).1) else acc
            | none => acc) = acc := by
        show (match arena.get? id with
          | some c2 => if c2.pick_weight < acc.1 then (c2.pick_weight, k) else acc
          | none => acc) = acc
        rw [harena]
      rw [List.enumFrom_cons, List.foldl_cons, List.map_cons, selMin, hw, hstep,
        if_neg (not_lt.mpr hacc)]
      exact ih acc (k + 1) hacc

theorem findMinIdx_eq_selMin (arena : List Clause) (sos : List Nat) :
    findMinIdx arena sos = (selMin (sos.map (wgt arena)) (i32MAX, 0) 0).2 := by
  unfold findMinIdx
  rw [show sos.enum = List.enumFrom 0 sos from rfl]
  rw [findMinIdx_fold arena sos (i32MAX, 0) 0 (le_refl _)]

theorem sosWeightAt_eq_get (st : ProverState) (j : Nat) (h : j < st.sos.length) :
    sosWeightAt st j
      = (st.sos.map (wgt st.arena)).get ⟨j, by simpa using h⟩ := by
  unfold sosWeightAt
  rw [List.get?_eq_get h]
  simp [List.get_map]

/-- C1: the given-clause selection of `search`.  Provided SOS is
non-empty and every SOS id resolves in the arena to a clause whose
cached weight is in i32 range (always true in Rust), the selection step
advances `pick_count` modulo `pick_given_ratio + 1`, and: below the
ratio it removes and returns the SOS entry of minimal cached
`pick_weight`, at the earliest position among the minimal ones (list
position order is insertion order, since SOS only grows by `push`);
at or above the ratio it pops the front of SOS (FIFO). -/
theorem claim_C1 (st : ProverState)
    (hne : st.sos ≠ [])
    (hvalid : ∀ id ∈ st.sos, ∃ c, st.arena.get? id = some c ∧ c.pick_weight ≤ i32MAX) :
    (selectGiven st).2.pick_count
        = (st.pick_count + 1) % (st.config.pick_given_ratio + 1)
    ∧ (st.pick_count < st.config.pick_given_ratio →
        ∃ i, i < st.sos.length
          ∧ (selectGiven st).1 = st.sos.get? i
          ∧ (selectGiven st).2.sos = st.sos.eraseIdx i
          ∧ (∀ j, j < st.sos.length → sosWeightAt st i ≤ sosWeightAt st j)
          ∧ (∀ j, j < i → sosWeightAt st i < sosWeightAt st j))
    ∧ (st.config.pick_given_ratio ≤ st.pick_count →
        (selectGiven st).1 = st.sos.head? ∧ (selectGiven st).2.sos = st.sos.tail) := by
  have hlen : 0 < st.sos.length := List.length_pos.mpr hne
  by_cases hbw : st.pick_count < st.config.pick_given_ratio
  · have hsel : selectGiven st
        = selectLightestClause
            { st with pick_count := (st.pick_count + 1) % (st.config.pick_given_ratio + 1) } := by
      simp [selectGiven, hbw]
    have hnotempty : st.sos.isEmpty = false := by
      simp [List.isEmpty_iff, hne]
    have hsel2 : selectGiven st
        = (st.sos.get? (findMinIdx st.arena st.sos),
           { st with
              pick_count := (st.pick_count + 1) % (st.config.pick_given_ratio + 1)
              sos := st.sos.eraseIdx (findMinIdx st.arena st.sos) }) := by
      rw [hsel]
      unfold selectLightestClause
      simp [hnotempty]
    refine ⟨by rw [hsel2], fun _ => ?_, fun hge => absurd hbw (not_lt.mpr hge)⟩
    have hjw : ∀ j, j < st.sos.length → sosWeightAt st j ≤ i32MAX := by
      intro j hj
      obtain ⟨c, hc, hcw⟩ := hvalid (st.sos.get ⟨j, hj⟩) (st.sos.get_mem j hj)
      rw [sosWeightAt_eq_get st j hj]
      have hmap : (st.sos.map (wgt st.arena)).get ⟨j, by simpa using hj⟩
          = wgt st.arena (st.sos.get ⟨j, hj⟩) := by
        simp [List.get_map]
      rw [hmap]
      unfold wgt
      rw [hc]
      exact hcw
    by_cases hex : ∃ w ∈ st.sos.map (wgt st.arena), w < i32MAX
    · obtain ⟨j, hj, heq, _, hmin, hfirst⟩ :=
        selMin_lt (st.sos.map (wgt st.arena)) i32MAX 0 0 hex
      have hjlen : j < st.sos.length := by simpa using hj
      have hidx : findMinIdx st.arena st.sos = j := by
        rw [findMinIdx_eq_selMin, heq]; simp
      refine ⟨j, hjlen, ?_, ?_, ?_, ?_⟩
      · rw [hsel2, hidx]
      · rw [hsel2, hidx]
      · intro i hi
        rw [sosWeightAt_eq_get st j hjlen, sosWeightAt_eq_get st i hi]
        exact hmin i (by simpa using hi)
      · intro i hij
        have hi : i < st.sos.length := lt_trans hij hjlen
        rw [sosWeightAt_eq_get st j hjlen, sosWeightAt_eq_get st i hi]
        exact hfirst i (by simpa using hi) hij
    · push_neg at hex
      have hstay : selMin (st.sos.map (wgt st.arena)) (i32MAX, 0) 0 = (i32MAX, 0) :=
        selMin_ge _ _ _ _ hex
      have hidx : findMinIdx st.arena st.sos = 0 := by
        rw [findMinIdx_eq_selMin, hstay]
      have hall : ∀ j, j < st.sos.length → sosWeightAt st j = i32MAX := by
        intro j hj
        have h1 : i32MAX ≤ sosWeightAt st j := by
          rw [sosWeightAt_eq_get st j hj]
          exact hex _ (List.get_mem _ _ _)
        exact le_antisymm (hjw j hj) h1
      refine ⟨0, hlen, by rw [hsel2, hidx], by rw [hsel2, hidx], ?_, ?_⟩
      · intro i hi
        rw [hall 0 hlen, hall i hi]
      · intro i hi; omega
  · have hsel : selectGiven st
        = sosPop
            { st with pick_count := (st.pick_count + 1) % (st.config.pick_given_ratio + 1) } := by
      simp [selectGiven, hbw]
    match hsos : st.sos with
    | [] => exact absurd hsos hne
    | a :: rest =>
      have hpop : selectGiven st
          = (some a,
             { st with
                pick_count := (st.pick_count + 1) % (st.config.pick_given_ratio + 1)
                sos := rest }) := by
        rw [hsel]
        unfold sosPop
        simp [hsos]
      exact ⟨by rw [hpop], fun hlt => absurd hlt hbw,
        fun _ => ⟨by rw [hpop]; rfl, by rw [hpop]; rfl⟩⟩


/-- A clause with cached weight 7 (empty literal list suffices for the
selection witness). -/
def cl7 : Clause := { literals := [], parents := [], pick_weight := 7 }

/-- A clause with cached weight 3. -/
def cl3 : Clause := { literals := [], parents := [], pick_weight := 3 }

/-- A prover state with two SOS clauses of weights 7 and 3, `pick_count`
0 and the default ratio 4, so the next selection is by weight. -/
def c1State : ProverState :=
  { baseState with arena := [cl7, cl3], sos := [0, 1] }

/-- C1 witness: on `c1State` the hypotheses hold and the selection
characterisation applies. -/
theorem claim_C1_witness :
    (c1State.sos ≠ []
      ∧ ∀ id ∈ c1State.sos, ∃ c, c1State.arena.get? id = some c ∧ c.pick_weight ≤ i32MAX)
    ∧ ((selectGiven c1State).2.pick_count
          = (c1State.pick_count + 1) % (c1State.config.pick_given_ratio + 1)
      ∧ (c1State.pick_count < c1State.config.pick_given_ratio →
          ∃ i, i < c1State.sos.length
            ∧ (selectGiven c1State).1 = c1State.sos.get? i
            ∧ (selectGiven c1State).2.sos = c1State.sos.eraseIdx i
            ∧ (∀ j, j < c1State.sos.length → sosWeightAt c1State i ≤ sosWeightAt c1State j)
            ∧ (∀ j, j < i → sosWeightAt c1State i < sosWeightAt c1State j))
      ∧ (c1State.config.pick_given_ratio ≤ c1State.pick_count →
          (selectGiven c1State).1 = c1State.sos.head?
            ∧ (selectGiven c1State).2.sos = c1State.sos.tail)) := by
  have hvalid : ∀ id ∈ c1State.sos,
      ∃ c, c1State.arena.get? id = some c ∧ c.pick_weight ≤ i32MAX := by
    intro id hid
    have hid2 : id ∈ ([0, 1] : List Nat) := hid
    have : id = 0 ∨ id = 1 := by simpa using hid2
    rcases this with rfl | rfl
    · exact ⟨cl7, rfl, by decide⟩
    · exact ⟨cl3, rfl, by decide⟩
  exact ⟨⟨by decide, hvalid⟩, claim_C1 c1State (by decide) hvalid⟩

/-! ## C10 -/

theorem tryKeepClause_demods (st : ProverState) (c : Clause) :
    ((tryKeepClause st c).1).demodulators = st.demodulators := by
  unfold tryKeepClause
  dsimp only
  repeat' split
  all_goals rfl

theorem tryKeepClause_arena (st : ProverState) (c : Clause) :
    ∃ l, ((tryKeepClause st c).1).arena = st.arena ++ l := by
  unfold tryKeepClause
  dsimp only
  repeat' split
  all_goals first
    | exact ⟨_, rfl⟩
    | exact ⟨[], (List.append_nil _).symm⟩

theorem performBackSubsumption_arena (st : ProverState) (c : Clause) :
    (performBackSubsumption st c).arena = st.arena
      ∧ (performBackSubsumption st c).demodulators = st.demodulators := by
  unfold performBackSubsumption
  split
  · exact ⟨rfl, rfl⟩
  · exact ⟨rfl, rfl⟩

theorem processChildTail_pres (st : ProverState) (uc ss : List Clause) (fc : Clause) :
    (∀ stF kept, processChildTail st uc ss fc = .next stF kept →
      stF.demodulators = st.demodulators ∧ ∃ l, stF.arena = st.arena ++ l)
    ∧ ∀ stF idF, processChildTail st uc ss fc = .proofFound stF idF → False := by
  unfold processChildTail
  split
  · exact ⟨fun stF kept heq => by cases heq; exact ⟨rfl, ⟨[], (List.append_nil _).symm⟩⟩,
      fun stF idF heq => by cases heq⟩
  · split
    · exact ⟨fun stF kept heq => by cases heq; exact ⟨rfl, ⟨[], (List.append_nil _).symm⟩⟩,
        fun stF idF heq => by cases heq⟩
    · constructor
      · intro stF kept heq
        cases heq
        refine ⟨?_, ?_⟩
        · rw [tryKeepClause_demods, (performBackSubsumption_arena st fc).2]
        · obtain ⟨l, hl⟩ := tryKeepClause_arena (performBackSubsumption st fc) fc
          exact ⟨l, by rw [hl, (performBackSubsumption_arena st fc).1]⟩
      · intro stF idF heq
        cases heq

theorem take_of_append (a l : List Clause) : (a ++ l).take a.length = a :=
  List.take_left a l

theorem backDemodList_pres (recompute : Bool) (d : Demodulator) :
    ∀ (ids : List Nat) (st : ProverState),
      ((backDemodList recompute d st ids).1).demodulators = st.demodulators
      ∧ ((backDemodList recompute d st ids).1).config = st.config
      ∧ ((backDemodList recompute d st ids).1).eq_symbol = st.eq_symbol
      ∧ ((backDemodList recompute d st ids).1).lrpo = st.lrpo
      ∧ ((backDemodList recompute d st ids).1).hints = st.hints
      ∧ ((backDemodList recompute d st ids).1).weight_table = st.weight_table
      ∧ ((backDemodList recompute d st ids).1).sos = st.sos
      ∧ ((backDemodList recompute d st ids).1).usable = st.usable
      ∧ ((backDemodList recompute d st ids).1).clauses_kept = st.clauses_kept
      ∧ ((backDemodList recompute d st ids).1).clauses_generated = st.clauses_generated := by
  intro ids
  induction ids with
  | nil => intro st; exact ⟨rfl, rfl, rfl, rfl, rfl, rfl, rfl, rfl, rfl, rfl⟩
  | cons id rest ih =>
    intro st
    unfold backDemodList
    dsimp only
    split
    · exact ih st
    · split
      · split
        · exact ⟨rfl, rfl, rfl, rfl, rfl, rfl, rfl, rfl, rfl, rfl⟩
        · split
          · exact ih _
          · exact ih _
      · exact ih st

theorem backDemodulate_pres (st : ProverState) (d : Demodulator) :
    (backDemodulate st d).demodulators = st.demodulators
    ∧ (backDemodulate st d).config = st.config
    ∧ (backDemodulate st d).eq_symbol = st.eq_symbol
    ∧ (backDemodulate st d).lrpo = st.lrpo
    ∧ (backDemodulate st d).hints = st.hints
    ∧ (backDemodulate st d).weight_table = st.weight_table
    ∧ (backDemodulate st d).clauses_kept = st.clauses_kept
    ∧ (backDemodulate st d).clauses_generated = st.clauses_generated
    ∧ (backDemodulate st d).sos = st.sos
    ∧ (backDemodulate st d).usable = st.usable := by
  unfold backDemodulate
  dsimp only
  split
  · obtain ⟨h1, h2, h3, h4, h5, h6, h7, h8, h9, h10⟩ := backDemodList_pres false d st.usable st
    exact ⟨h1, h2, h3, h4, h5, h6, h9, h10, h7, h8⟩
  · obtain ⟨h1, h2, h3, h4, h5, h6, h7, h8, h9, h10⟩ := backDemodList_pres false d st.usable st
    obtain ⟨g1, g2, g3, g4, g5, g6, g7, g8, g9, g10⟩ :=
      backDemodList_pres true d ((backDemodList false d st st.usable).1).sos
        (backDemodList false d st st.usable).1
    exact ⟨g1.trans h1, g2.trans h2, g3.trans h3, g4.trans h4, g5.trans h5,
      g6.trans h6, g9.trans h9, g10.trans h10, g7.trans h7, g8.trans h8⟩

theorem pncExtractStage_demods (st : ProverState) (c2 : Clause) (e : Nat)
    (d : Demodulator) (hdemod : st.config.use_demod = true)
    (heq : st.eq_symbol = some e)
    (hex : extractDemodulator c2 e st.lrpo = some d) :
    (pncExtractStage st c2).demodulators = st.demodulators ++ [d] := by
  unfold pncExtractStage
  rw [hdemod, heq]
  dsimp only
  rw [hex]
  dsimp only
  split
  · rw [(backDemodulate_pres st d).1]
  · rfl

theorem processNewClause_inv (st : ProverState) (c : Clause) (st2 : ProverState)
    (c2 : Clause) (hrun : processNewClause st c = (st2, some c2)) :
    (st2 = st ∧ c2 = Clause.mk0 [])
    ∨ (c2 = pncDemodStage st (pncFactorStage st c) ∧ st2 = pncExtractStage st c2) := by
  unfold processNewClause at hrun
  by_cases htaut : hasComplementaryPair c.literals = true
  · rw [if_pos htaut] at hrun
    exact absurd (congrArg Prod.snd hrun) (by simp)
  · rw [if_neg htaut] at hrun
    dsimp only at hrun
    by_cases href :
        isRefutedEq st.eq_symbol (pncDemodStage st (pncFactorStage st c)) = true
    · rw [if_pos href] at hrun
      injection hrun with h1 h2
      injection h2 with h2
      exact Or.inl ⟨h1.symm, h2.symm⟩
    · rw [if_neg href] at hrun
      injection hrun with h1 h2
      injection h2 with h2
      refine Or.inr ⟨h2.symm, ?_⟩
      rw [← h1, ← h2]

theorem processOneChild_pres (st : ProverState) (uc : List Clause)
    (uids : List (Option Nat)) (ss : List Clause) (c : Clause)
    (st2 : ProverState) (c2 : Clause)
    (hrun : processNewClause
        { st with clauses_generated := st.clauses_generated + 1 } c = (st2, some c2)) :
    (∀ stF kept, processOneChild st uc uids ss c = .next stF kept →
        stF.demodulators = st2.demodulators ∧ ∃ l, stF.arena = st2.arena ++ l)
    ∧ (∀ stF idF, processOneChild st uc uids ss c = .proofFound stF idF →
        stF.demodulators = st2.demodulators ∧ ∃ l, stF.arena = st2.arena ++ l) := by
  have htail : ∀ fc : Clause,
      (∀ stF kept, processChildTail st2 uc ss fc = .next stF kept →
        stF.demodulators = st2.demodulators ∧ ∃ l, stF.arena = st2.arena ++ l)
      ∧ ∀ stF idF, processChildTail st2 uc ss fc = .proofFound stF idF → False :=
    fun fc => processChildTail_pres st2 uc ss fc
  unfold processOneChild
  dsimp only
  rw [hrun]
  dsimp only
  by_cases hp : isProof st2 c2 = true
  · rw [if_pos hp]
    constructor
    · intro stF kept heq; cases heq
    · intro stF idF heq
      cases heq
      exact ⟨rfl, ⟨[c2], rfl⟩⟩
  · rw [if_neg hp]
    by_cases hud : st2.config.use_unit_deletion = true
    · rw [if_pos hud]
      cases hfud : forwardUnitDeletion c2 uc uids with
      | some ud =>
        dsimp only
        by_cases hp2 : isProof st2
            { ud.clause with parents := ud.clause.parents ++ ud.parents } = true
        · rw [if_pos hp2]
          constructor
          · intro stF kept heq; cases heq
          · intro stF idF heq
            cases heq
            exact ⟨rfl, ⟨[{ ud.clause with parents := ud.clause.parents ++ ud.parents }], rfl⟩⟩
        · rw [if_neg hp2]
          exact ⟨(htail _).1, fun stF idF heq => absurd heq (by
            intro h; exact (htail _).2 stF idF h)⟩
      | none =>
        dsimp only
        exact ⟨(htail _).1, fun stF idF heq => absurd heq (by
          intro h; exact (htail _).2 stF idF h)⟩
    · rw [if_neg hud]
      exact ⟨(htail _).1, fun stF idF heq => absurd heq (by
        intro h; exact (htail _).2 stF idF h)⟩

/-- C10: when `process_new_clause` extracts a demodulator `d` from a
child (demodulation on, equality symbol set, extraction succeeding on
the processed clause it returns), it appends exactly `d` to the
demodulator list — after running back-demodulation when that is enabled
— and these state changes survive the rest of the per-child pipeline:
whatever the outcome (kept, discarded by the tautology re-check, forward
subsumption or the max-weight filter, or even a proof), the final state
still carries the demodulator list produced by `process_new_clause`, and
its arena extends the arena as `process_new_clause` left it (in-place
back-demodulation rewrites included). -/
theorem claim_C10 (st : ProverState) (uc : List Clause) (uids : List (Option Nat))
    (ss : List Clause) (c : Clause) (e : Nat) (d : Demodulator)
    (st2 : ProverState) (c2 : Clause)
    (hrun : processNewClause
        { st with clauses_generated := st.clauses_generated + 1 } c = (st2, some c2))
    (hdemod : st.config.use_demod = true)
    (heq : st.eq_symbol = some e)
    (hex : extractDemodulator c2 e st.lrpo = some d) :
    st2.demodulators = st.demodulators ++ [d]
    ∧ (∀ stF kept, processOneChild st uc uids ss c = .next stF kept →
        stF.demodulators = st2.demodulators
          ∧ stF.arena.take st2.arena.length = st2.arena)
    ∧ (∀ stF idF, processOneChild st uc uids ss c = .proofFound stF idF →
        stF.demodulators = st2.demodulators
          ∧ stF.arena.take st2.arena.length = st2.arena) := by
  have hinv := processNewClause_inv _ c st2 c2 hrun
  have hdem : st2.demodulators = st.demodulators ++ [d] := by
    rcases hinv with ⟨_, hc2⟩ | ⟨_, hst2⟩
    · rw [hc2] at hex
      exact absurd hex (by rw [show extractDemodulator (Clause.mk0 []) e st.lrpo = none from rfl]; simp)
    · rw [hst2]
      exact pncExtractStage_demods _ c2 e d hdemod heq hex
  have hpres := processOneChild_pres st uc uids ss c st2 c2 hrun
  refine ⟨hdem, ?_, ?_⟩
  · intro stF kept heq2
    obtain ⟨h1, l, hl⟩ := hpres.1 stF kept heq2
    exact ⟨h1, by rw [hl]; exact List.take_left _ _⟩
  · intro stF idF heq2
    obtain ⟨h1, l, hl⟩ := hpres.2 stF idF heq2
    exact ⟨h1, by rw [hl]; exact List.take_left _ _⟩

/-- A configuration with demodulation, back-demodulation and a small
`max_weight`, so that the witness child is discarded by the weight
filter while its demodulator survives. -/
def c10Config : ProverConfig :=
  { defaultConfig with use_demod := true, use_back_demod := true, max_weight := 1 }

/-- The witness prover: equality symbol 1, precedence `f(2) ≻ a(3)`. -/
def c10State : ProverState :=
  { baseState with config := c10Config, eq_symbol := some 1, lrpo := [(2, 1), (3, 2)] }

/-- The witness child: the positive unit equality `f(a) = a`. -/
def c10Child : Clause :=
  Clause.mk0 [{ sign := true, atom := .app 1 [.app 2 [.app 3 []], .app 3 []] }]

/-- The demodulator `f(a) → a` extracted from the witness child. -/
def c10Demod : Demodulator := { lhs := .app 2 [.app 3 []], rhs := .app 3 [] }

/-- The prover state after `process_new_clause` on the witness child. -/
def c10St2 : ProverState :=
  { c10State with clauses_generated := 1, demodulators := [c10Demod] }

/-- C10 witness: on the concrete run the hypotheses hold, the
demodulator `f(a) → a` is appended, and although the child itself is
then discarded by the max-weight filter (`processOneChild` ends in
`.next` with `kept = false` and state `c10St2`), the demodulator
persists in the final state. -/
theorem claim_C10_witness :
    (processNewClause
        { c10State with clauses_generated := c10State.clauses_generated + 1 } c10Child
      = (c10St2, some c10Child)
      ∧ c10State.config.use_demod = true
      ∧ c10State.eq_symbol = some 1
      ∧ extractDemodulator c10Child 1 c10State.lrpo = some c10Demod)
    ∧ c10St2.demodulators = c10State.demodulators ++ [c10Demod]
    ∧ (processOneChild c10State [] [] [] c10Child = ChildStep.next c10St2 false
      ∧ c10St2.demodulators = c10St2.demodulators
      ∧ c10St2.arena.take c10St2.arena.length = c10St2.arena) := by
  refine ⟨⟨rfl, rfl, rfl, rfl⟩, ?_, rfl, ?_⟩
  · exact (claim_C10 c10State [] [] [] c10Child 1 c10Demod c10St2 c10Child
      rfl rfl rfl rfl).1
  · exact (claim_C10 c10State [] [] [] c10Child 1 c10Demod c10St2 c10Child
      rfl rfl rfl rfl).2.1 c10St2 false rfl

/-! ## C6 -/

theorem processNewClause_pres (st : ProverState) (c : Clause) :
    ((processNewClause st c).1).clauses_kept = st.clauses_kept
    ∧ ((processNewClause st c).1).clauses_generated = st.clauses_generated
    ∧ ((processNewClause st c).1).sos = st.sos
    ∧ ((processNewClause st c).1).usable = st.usable
    ∧ ((processNewClause st c).1).config = st.config := by
  unfold processNewClause pncExtractStage
  dsimp only
  repeat' split
  all_goals try exact ⟨rfl, rfl, rfl, rfl, rfl⟩
  all_goals
    obtain ⟨_, h2, _, _, _, _, h7, h8, h9, h10⟩ := backDemodulate_pres st (by assumption)
  all_goals exact ⟨h7, h8, h9, h10, h2⟩

theorem performBackSubsumption_off (st : ProverState) (c : Clause)
    (h : st.config.use_subsumption = false) :
    performBackSubsumption st c = st := by
  unfold performBackSubsumption
  rw [h]
  rfl

theorem tryKeepClause_spec (st : ProverState) (c : Clause) :
    tryKeepClause st c = (st, false)
    ∨ ((tryKeepClause st c).2 = true
        ∧ ((tryKeepClause st c).1).clauses_kept = st.clauses_kept + 1
        ∧ (∃ id, ((tryKeepClause st c).1).sos = st.sos ++ [id])
        ∧ ((tryKeepClause st c).1).usable = st.usable
        ∧ ((tryKeepClause st c).1).clauses_generated = st.clauses_generated) := by
  unfold tryKeepClause
  dsimp only
  repeat' split
  all_goals first
    | exact Or.inl rfl
    | exact Or.inr ⟨rfl, rfl, ⟨st.arena.length, rfl⟩, rfl, rfl⟩

theorem processChildTail_count (st : ProverState) (uc ss : List Clause) (fc : Clause)
    (hsub : st.config.use_subsumption = false) :
    ∀ stF kept, processChildTail st uc ss fc = .next stF kept →
      stF.clauses_generated = st.clauses_generated
      ∧ stF.usable = st.usable
      ∧ (kept = true → stF.clauses_kept = st.clauses_kept + 1 ∧ ∃ id, stF.sos = st.sos ++ [id])
      ∧ (kept = false → stF.clauses_kept = st.clauses_kept ∧ stF.sos = st.sos) := by
  have hff : ¬ (false = true) := by decide
  unfold processChildTail
  split
  · intro stF kept heq
    cases heq
    exact ⟨rfl, rfl, fun h => absurd h hff, fun _ => ⟨rfl, rfl⟩⟩
  · split
    · next hcond =>
      rw [hsub] at hcond
      simp at hcond
    · intro stF kept heq
      rw [performBackSubsumption_off st fc hsub] at heq
      dsimp only at heq
      rcases tryKeepClause_spec st fc with hdis | ⟨h2t, hk, ⟨id, hs⟩, hu, hg⟩
      · rw [hdis] at heq
        dsimp only at heq
        cases heq
        exact ⟨rfl, rfl, fun h => absurd h hff, fun _ => ⟨rfl, rfl⟩⟩
      · have hpair : tryKeepClause st fc = ((tryKeepClause st fc).1, true) := by
          rw [← h2t]
        rw [hpair] at heq
        dsimp only at heq
        cases heq
        exact ⟨hg, hu, fun _ => ⟨hk, ⟨id, hs⟩⟩, fun h => absurd h.symm hff⟩

/-- C6 (amended): in the per-child pipeline, `clauses_generated` is
incremented exactly once per child, before processing (TRUE as
claimed); and `clauses_kept` counts the insertions into SOS (via
`try_keep_clause`) PLUS the proof clause inserted into the arena when
the child yields a proof — a proof clause increments `clauses_kept`
without any insertion into SOS or usable, so `clauses_kept` does not
equal the number of SOS/usable insertions on proof runs.  Stated here
with back-subsumption disabled so that SOS-length changes come from
insertions alone. -/
theorem claim_C6 (st : ProverState) (uc : List Clause) (uids : List (Option Nat))
    (ss : List Clause) (c : Clause)
    (hsub : st.config.use_subsumption = false) :
    (∀ stF kept, processOneChild st uc uids ss c = .next stF kept →
        stF.clauses_generated = st.clauses_generated + 1
        ∧ stF.usable = st.usable
        ∧ (kept = true → stF.clauses_kept = st.clauses_kept + 1 ∧ ∃ id, stF.sos = st.sos ++ [id])
        ∧ (kept = false → stF.clauses_kept = st.clauses_kept ∧ stF.sos = st.sos))
    ∧ (∀ stF idF, processOneChild st uc uids ss c = .proofFound stF idF →
        stF.clauses_generated = st.clauses_generated + 1
        ∧ stF.clauses_kept = st.clauses_kept + 1
        ∧ stF.sos = st.sos ∧ stF.usable = st.usable) := by
  unfold processOneChild
  dsimp only
  cases hrun : processNewClause
      { st with clauses_generated := st.clauses_generated + 1 } c with
  | mk st2 r =>
    have hpres := processNewClause_pres
      { st with clauses_generated := st.clauses_generated + 1 } c
    rw [hrun] at hpres
    obtain ⟨hk2, hg2, hs2, hu2, hc2⟩ := hpres
    dsimp only at hk2 hg2 hs2 hu2 hc2
    have hsub2 : st2.config.use_subsumption = false := by rw [hc2]; exact hsub
    have htail : ∀ fc stF kept, processChildTail st2 uc ss fc = .next stF kept →
        stF.clauses_generated = st.clauses_generated + 1
        ∧ stF.usable = st.usable
        ∧ (kept = true → stF.clauses_kept = st.clauses_kept + 1 ∧ ∃ id, stF.sos = st.sos ++ [id])
        ∧ (kept = false → stF.clauses_kept = st.clauses_kept ∧ stF.sos = st.sos) := by
      intro fc stF kept heq
      obtain ⟨t1, t2, t3, t4⟩ := processChildTail_count st2 uc ss fc hsub2 stF kept heq
      refine ⟨by rw [t1, hg2], by rw [t2, hu2], ?_, ?_⟩
      · intro h
        obtain ⟨ha, ⟨id, hb⟩⟩ := t3 h
        exact ⟨by rw [ha, hk2], ⟨id, by rw [hb, hs2]⟩⟩
      · intro h
        obtain ⟨ha, hb⟩ := t4 h
        exact ⟨by rw [ha, hk2], by rw [hb, hs2]⟩
    have htailp : ∀ fc stF idF, processChildTail st2 uc ss fc = .proofFound stF idF → False :=
      fun fc => (processChildTail_pres st2 uc ss fc).2
    cases r with
    | none =>
      dsimp only
      refine ⟨fun stF kept heq => ?_, fun stF idF heq => by cases heq⟩
      cases heq
      exact ⟨hg2, hu2, fun h => absurd h (by decide), fun _ => ⟨hk2, hs2⟩⟩
    | some c2 =>
      dsimp only
      by_cases hp : isProof st2 c2 = true
      · rw [if_pos hp]
        constructor
        · intro stF kept heq
          cases heq
        · intro stF idF heq
          cases heq
          exact ⟨hg2, by show st2.clauses_kept + 1 = st.clauses_kept + 1; rw [hk2], hs2, hu2⟩
      · rw [if_neg hp]
        by_cases hud : st2.config.use_unit_deletion = true
        · rw [if_pos hud]
          cases hfud : forwardUnitDeletion c2 uc uids with
          | some ud =>
            dsimp only
            by_cases hp2 : isProof st2
                { ud.clause with parents := ud.clause.parents ++ ud.parents } = true
            · rw [if_pos hp2]
              constructor
              · intro stF kept heq
                cases heq
              · intro stF idF heq
                cases heq
                exact ⟨hg2, by show st2.clauses_kept + 1 = st.clauses_kept + 1; rw [hk2], hs2, hu2⟩
            · rw [if_neg hp2]
              exact ⟨htail _, fun stF idF heq => absurd heq (fun h => htailp _ stF idF h)⟩
          | none =>
            dsimp only
            exact ⟨htail _, fun stF idF heq => absurd heq (fun h => htailp _ stF idF h)⟩
        · rw [if_neg hud]
          exact ⟨htail _, fun stF idF heq => absurd heq (fun h => htailp _ stF idF h)⟩

/-- The final state of the C6 counterexample run: the empty-clause child
is counted as kept and inserted into the arena only. -/
def c6StF : ProverState :=
  { baseState with clauses_generated := 1, clauses_kept := 1, arena := [Clause.mk0 []] }

/-- C6 counterexample: processing an empty resolvent on the fresh prover
ends in `.proofFound` with `clauses_kept = 1` while SOS and usable are
both still empty — the kept counter does not equal the number of clauses
inserted into SOS or usable. -/
theorem claim_C6_counterexample :
    processOneChild baseState [] [] [] (Clause.mk0 [])
        = ChildStep.proofFound c6StF 0
    ∧ c6StF.clauses_kept = 1 ∧ c6StF.sos = [] ∧ c6StF.usable = [] :=
  ⟨rfl, rfl, rfl, rfl⟩

/-- C6 witness: the counting characterisation applied to the
empty-clause run on the fresh prover. -/
theorem claim_C6_witness :
    baseState.config.use_subsumption = false
    ∧ (c6StF.clauses_generated = baseState.clauses_generated + 1
      ∧ c6StF.clauses_kept = baseState.clauses_kept + 1
      ∧ c6StF.sos = baseState.sos ∧ c6StF.usable = baseState.usable) :=
  ⟨rfl, (claim_C6 baseState [] [] [] (Clause.mk0 []) rfl).2 c6StF 0 rfl⟩

/-! ## C3 -/

/-- The C3 invariant: every SOS id that resolves in the arena carries a
cached `pick_weight` equal to the structural clause weight under the
current weight table. -/
def sosWeightInv (st : ProverState) : Prop :=
  ∀ id ∈ st.sos, ∀ c, st.arena.get? id = some c →
    c.pick_weight = weightClause st.weight_table c

theorem weightClause_set_weight (wt : WeightTable) (c : Clause) (w : Int) :
    weightClause wt { c with pick_weight := w } = weightClause wt c := rfl

theorem sosWeightInv_append (st st2 : ProverState) (c2 : Clause)
    (harena : st2.arena = st.arena ++ [c2])
    (hsos : st2.sos = st.sos ++ [st.arena.length])
    (hwt : st2.weight_table = st.weight_table)
    (hw : c2.pick_weight = weightClause st.weight_table c2)
    (hinv : sosWeightInv st) : sosWeightInv st2 := by
  intro id hid c hc
  rw [hsos] at hid
  rw [harena] at hc
  rw [hwt]
  by_cases hlt : id < st.arena.length
  · rw [List.get?_append hlt] at hc
    rcases List.mem_append.mp hid with hid1 | hid2
    · exact hinv id hid1 c hc
    · exfalso
      have : id = st.arena.length := by simpa using hid2
      omega
  · by_cases heq : id = st.arena.length
    · subst heq
      rw [List.get?_concat_length] at hc
      cases hc
      exact hw
    · exfalso
      have hlen : (st.arena ++ [c2]).length ≤ id := by
        simp only [List.length_append, List.length_cons, List.length_nil]
        omega
      rw [List.get?_eq_none.mpr hlen] at hc
      cases hc

theorem addSos_no_hints (st : ProverState) (c : Clause) (hh : st.hints = []) :
    addSos st c
      = ({ st with
            arena := st.arena ++ [{ c with pick_weight := weightClause st.weight_table c }]
            sos := st.sos ++ [st.arena.length]
            clauses_kept := st.clauses_kept + 1 }, st.arena.length) := by
  unfold addSos
  rw [hh]
  rfl

theorem tryKeep_no_hints (st : ProverState) (c : Clause) (hh : st.hints = []) :
    tryKeepClause st c = (st, false)
    ∨ tryKeepClause st c
      = ({ st with
            arena := st.arena ++ [{ c with pick_weight := weightClause st.weight_table c }]
            sos := st.sos ++ [st.arena.length]
            clauses_kept := st.clauses_kept + 1 }, true) := by
  unfold tryKeepClause
  rw [hh]
  dsimp only
  split
  · split
    · exact Or.inl rfl
    · exact Or.inr rfl
  · next h => simp at h

theorem backDemodList_inv (recompute : Bool) (d : Demodulator) :
    ∀ (ids : List Nat) (st : ProverState), sosWeightInv st →
      (recompute = false → ∀ id ∈ ids, id ∉ st.sos) →
      sosWeightInv (backDemodList recompute d st ids).1 := by
  intro ids
  induction ids with
  | nil => intro st hinv _; exact hinv
  | cons id rest ih =>
    intro st hinv hdisj
    unfold backDemodList
    dsimp only
    cases harena : st.arena.get? id with
    | none =>
      exact ih st hinv (fun hrec id2 hid2 => hdisj hrec id2 (by simp [hid2]))
    | some c =>
      dsimp only
      split
      · split
        · -- early stop: an empty clause (weight 0 = structural weight 0) is appended
          intro id2 hid2 c2 hc2
          by_cases hlt : id2 < st.arena.length
          · rw [List.get?_append hlt] at hc2
            exact hinv id2 hid2 c2 hc2
          · by_cases hid2eq : id2 = st.arena.length
            · subst hid2eq
              rw [List.get?_concat_length] at hc2
              cases hc2
              rfl
            · exfalso
              have hlen : (st.arena ++ [Clause.mk0 []]).length ≤ id2 := by
                simp only [List.length_append, List.length_cons, List.length_nil]
                omega
              rw [List.get?_eq_none.mpr hlen] at hc2
              cases hc2
        · -- in-place rewrite, then continue
          apply ih
          · intro id2 hid2 c2 hc2
            by_cases hsame : id2 = id
            · subst hsame
              have hlt : id2 < st.arena.length := (List.get?_eq_some.mp harena).1
              rw [List.get?_set_eq_of_lt _ hlt] at hc2
              cases hc2
              cases hrec : recompute with
              | true =>
                exact (weightClause_set_weight _ _ _).symm
              | false =>
                exact absurd hid2 (hdisj hrec id2 (by simp))
            · rw [List.get?_set_ne _ _ (Ne.symm hsame)] at hc2
              exact hinv id2 hid2 c2 hc2
          · intro hrec id2 hid2
            exact hdisj hrec id2 (by simp [hid2])
      · exact ih st hinv (fun hrec id2 hid2 => hdisj hrec id2 (by simp [hid2]))

/-- C3 (amended): in runs with an empty hints list, every insertion into
SOS (input loading via `add_sos`, and `try_keep_clause` for inferred
clauses) caches `pick_weight = weight_table.weight_clause(clause)`, and
`back_demodulate` re-establishes the equation for every SOS clause it
rewrites (re-caching the weight in its SOS loop), so the invariant holds
again before the next given-clause selection.  The usable/SOS id lists
must be disjoint (as they are in a real run) because the usable loop of
`back_demodulate` rewrites clauses without re-caching. -/
theorem claim_C3 (st : ProverState) (hhints : st.hints = [])
    (hinv : sosWeightInv st) :
    (∀ c, sosWeightInv (addSos st c).1)
    ∧ (∀ c, sosWeightInv (tryKeepClause st c).1)
    ∧ (∀ d, (∀ id ∈ st.usable, id ∉ st.sos) → sosWeightInv (backDemodulate st d)) := by
  refine ⟨?_, ?_, ?_⟩
  · intro c
    rw [addSos_no_hints st c hhints]
    exact sosWeightInv_append st _ _ rfl rfl rfl (weightClause_set_weight _ _ _).symm hinv
  · intro c
    rcases tryKeep_no_hints st c hhints with h | h
    · rw [h]; exact hinv
    · rw [h]
      exact sosWeightInv_append st _ _ rfl rfl rfl (weightClause_set_weight _ _ _).symm hinv
  · intro d hdisj
    unfold backDemodulate
    dsimp only
    have h1 : sosWeightInv (backDemodList false d st st.usable).1 :=
      backDemodList_inv false d st.usable st hinv (fun _ => hdisj)
    split
    · exact h1
    · exact backDemodList_inv true d _ _ h1 (fun hrec => by cases hrec)

/-- Hint data whose equivalence adjustment adds 5 to the cached weight. -/
def c3HintData : HintData :=
  { fsub_wt := 0, fsub_add_wt := 0, bsub_wt := 0, bsub_add_wt := 0,
    equiv_wt := 0, equiv_add_wt := 5 }

/-- The unit clause `P` (nullary predicate symbol 5). -/
def c3Clause : Clause := Clause.mk0 [{ sign := true, atom := .app 5 [] }]

/-- A prover state carrying one hint equivalent to `c3Clause`. -/
def c3State : ProverState :=
  { baseState with hints := [{ clause := c3Clause, data := c3HintData }] }

/-- C3 counterexample: with a hint matching the clause, `add_sos` caches
`pick_weight = 6` (structural weight 1 plus the additive hint adjustment
5), so the inserted SOS clause violates
`pick_weight = weight_table.weight_clause(clause)`. -/
theorem claim_C3_counterexample :
    ((addSos c3State c3Clause).1.arena.get? 0).map Clause.pick_weight = some 6
    ∧ (addSos c3State c3Clause).1.sos = [0]
    ∧ ((addSos c3State c3Clause).1.arena.get? 0).map
        (weightClause (addSos c3State c3Clause).1.weight_table) = some 1
    ∧ (6 : Int) ≠ 1 := by
  refine ⟨rfl, rfl, rfl, by decide⟩

/-- C3 witness: the invariant-preservation theorem applied to the fresh
prover (empty hints, empty SOS, disjoint lists). -/
theorem claim_C3_witness :
    (baseState.hints = [] ∧ sosWeightInv baseState)
    ∧ sosWeightInv (addSos baseState c3Clause).1
    ∧ sosWeightInv (tryKeepClause baseState c3Clause).1
    ∧ sosWeightInv (backDemodulate baseState c10Demod) := by
  have hinv : sosWeightInv baseState := by
    intro id hid
    exact absurd hid (List.not_mem_nil id)
  refine ⟨⟨rfl, hinv⟩, ?_, ?_, ?_⟩
  · exact (claim_C3 baseState rfl hinv).1 c3Clause
  · exact (claim_C3 baseState rfl hinv).2.1 c3Clause
  · exact (claim_C3 baseState rfl hinv).2.2 c10Demod
      (fun id hid => absurd hid (List.not_mem_nil id))

/-! ## Fuel stability of the LRPO recursion -/

theorem termSize_pos : ∀ t : Term, 1 ≤ termSize t := by
  intro t
  cases t with
  | var x => exact le_refl 1
  | app s args => exact Nat.le_add_right 1 (termListSize args) |>.trans_eq (by rw [termSize])

theorem termSize_app (f : Nat) (args : List Term) :
    termSize (.app f args) = 1 + termListSize args := rfl

theorem termSize_le_listSize : ∀ (l : List Term) (a : Term), a ∈ l →
    termSize a ≤ termListSize l := by
  intro l
  induction l with
  | nil => intro a ha; exact absurd ha (List.not_mem_nil a)
  | cons t ts ih =>
    intro a ha
    rcases List.mem_cons.mp ha with rfl | ha2
    · rw [termListSize]; exact Nat.le_add_right _ _
    · rw [termListSize]; exact (ih a ha2).trans (Nat.le_add_left _ _)

theorem list_all_congr {α : Type} (f g : α → Bool) :
    ∀ l : List α, (∀ x ∈ l, f x = g x) → l.all f = l.all g := by
  intro l
  induction l with
  | nil => intro _; rfl
  | cons x xs ih =>
    intro h
    rw [List.all_cons, List.all_cons, h x (by simp),
      ih (fun y hy => h y (by simp [hy]))]

theorem list_any_congr {α : Type} (f g : α → Bool) :
    ∀ l : List α, (∀ x ∈ l, f x = g x) → l.any f = l.any g := by
  intro l
  induction l with
  | nil => intro _; rfl
  | cons x xs ih =>
    intro h
    rw [List.any_cons, List.any_cons, h x (by simp),
      ih (fun y hy => h y (by simp [hy]))]

theorem lrpoLexAux_congr (g1 g2 : Term → Term → Bool) (t1 t2 : Term) :
    ∀ (as bs : List Term),
      (∀ a ∈ as, ∀ b ∈ bs, g1 a b = g2 a b) →
      (∀ x ∈ bs, g1 t1 x = g2 t1 x) →
      (∀ y ∈ as, g1 y t2 = g2 y t2) →
      lrpoLexAux g1 t1 t2 as bs = lrpoLexAux g2 t1 t2 as bs := by
  intro as
  induction as with
  | nil =>
    intro bs _ _ _
    cases bs with
    | nil => rfl
    | cons b bs => rfl
  | cons a as ih =>
    intro bs h1 h2 h3
    cases bs with
    | nil => rfl
    | cons b bs =>
      rw [lrpoLexAux, lrpoLexAux]
      by_cases hid : termsIdentical a b = true
      · rw [if_pos hid, if_pos hid]
        exact ih bs (fun x hx y hy => h1 x (by simp [hx]) y (by simp [hy]))
          (fun x hx => h2 x (by simp [hx])) (fun y hy => h3 y (by simp [hy]))
      · rw [if_neg hid, if_neg hid, h1 a (by simp) b (by simp)]
        by_cases hg : g2 a b = true
        · rw [if_pos hg, if_pos hg]
          exact list_all_congr _ _ bs (fun x hx => h2 x (by simp [hx]))
        · rw [if_neg hg, if_neg hg]
          exact list_any_congr _ _ as (fun y hy => by
            rw [h3 y (by simp [hy])])

theorem lrpoGtF_succ_app_app (prec : List (Nat × Nat)) (n : Nat) (f : Nat)
    (sargs : List Term) (g : Nat) (targs : List Term) :
    lrpoGtF prec (n+1) (.app f sargs) (.app g targs)
      = (if f == g && sargs.length == targs.length then
          lrpoLexAux (lrpoGtF prec n) (.app f sargs) (.app g targs) sargs targs
        else
          match symPrecedence prec f g with
          | .sameAs => false
          | .greaterThan => targs.all (fun ta => lrpoGtF prec n (.app f sargs) ta)
          | .lessThan => sargs.any (fun sa =>
              termsIdentical sa (.app g targs) || lrpoGtF prec n sa (.app g targs))
          | .notComparable => sargs.any (fun sa =>
              termsIdentical sa (.app g targs) || lrpoGtF prec n sa (.app g targs))) := rfl

theorem lrpoGtF_var (prec : List (Nat × Nat)) (n : Nat) (x : Nat) (t : Term) :
    lrpoGtF prec (n+1) (.var x) t = false := rfl

theorem lrpoGtF_app_var (prec : List (Nat × Nat)) (n : Nat) (f : Nat)
    (sargs : List Term) (v : Nat) :
    lrpoGtF prec (n+1) (.app f sargs) (.var v)
      = occursIn (.var v) (.app f sargs) := rfl

theorem lrpoGtF_stable (prec : List (Nat × Nat)) :
    ∀ (k : Nat) (s t : Term), termSize s + termSize t ≤ k →
      ∀ n m, termSize s + termSize t ≤ n → termSize s + termSize t ≤ m →
      lrpoGtF prec n s t = lrpoGtF prec m s t := by
  intro k
  induction k using Nat.strong_induction_on with
  | _ k ih =>
    intro s t hk n m hn hm
    have hs1 := termSize_pos s
    have ht1 := termSize_pos t
    obtain ⟨n1, rfl⟩ : ∃ n1, n = n1 + 1 := ⟨n - 1, by omega⟩
    obtain ⟨m1, rfl⟩ : ∃ m1, m = m1 + 1 := ⟨m - 1, by omega⟩
    cases s with
    | var x => rw [lrpoGtF_var, lrpoGtF_var]
    | app f sargs =>
      cases t with
      | var v => rw [lrpoGtF_app_var, lrpoGtF_app_var]
      | app g targs =>
        have hsub : ∀ a ∈ sargs, ∀ b ∈ targs,
            lrpoGtF prec n1 a b = lrpoGtF prec m1 a b := by
          intro a ha b hb
          have h1 : termSize a ≤ termListSize sargs := termSize_le_listSize sargs a ha
          have h2 : termSize b ≤ termListSize targs := termSize_le_listSize targs b hb
          rw [termSize_app, termSize_app] at hk hn hm
          exact ih (termSize a + termSize b) (by omega) a b (le_refl _)
            n1 m1 (by omega) (by omega)
        have hleft : ∀ b ∈ targs,
            lrpoGtF prec n1 (.app f sargs) b = lrpoGtF prec m1 (.app f sargs) b := by
          intro b hb
          have h2 : termSize b ≤ termListSize targs := termSize_le_listSize targs b hb
          rw [termSize_app, termSize_app] at hk hn hm
          exact ih (termSize (.app f sargs) + termSize b)
            (by rw [termSize_app]; omega) _ b (le_refl _) n1 m1
            (by rw [termSize_app]; omega) (by rw [termSize_app]; omega)
        have hright : ∀ a ∈ sargs,
            lrpoGtF prec n1 a (.app g targs) = lrpoGtF prec m1 a (.app g targs) := by
          intro a ha
          have h1 : termSize a ≤ termListSize sargs := termSize_le_listSize sargs a ha
          rw [termSize_app, termSize_app] at hk hn hm
          exact ih (termSize a + termSize (.app g targs))
            (by rw [termSize_app]; omega) a _ (le_refl _) n1 m1
            (by rw [termSize_app]; omega) (by rw [termSize_app]; omega)
        rw [lrpoGtF_succ_app_app, lrpoGtF_succ_app_app]
        by_cases hfg : (f == g && sargs.length == targs.length) = true
        · rw [if_pos hfg, if_pos hfg]
          exact lrpoLexAux_congr _ _ _ _ sargs targs hsub hleft hright
        · rw [if_neg hfg, if_neg hfg]
          cases hp : symPrecedence prec f g with
          | sameAs => rfl
          | greaterThan => exact list_all_congr _ _ targs hleft
          | lessThan =>
            exact list_any_congr _ _ sargs (fun a ha => by rw [hright a ha])
          | notComparable =>
            exact list_any_congr _ _ sargs (fun a ha => by rw [hright a ha])

/-! ## C7 -/

/-- C7 (amended): the claimed characterisation of `lrpo_gt` on
applications with distinct root symbols holds whenever the two terms are
small enough that the recursion-depth cap cannot fire (combined size at
most `MAX_LRPO_DEPTH + 1 = 101`); beyond that the inner comparisons run
with one unit of depth less than a top-level call and the biconditionals
can fail. -/
theorem claim_C7 (prec : List (Nat × Nat)) (f g : Nat) (sargs targs : List Term)
    (hfg : f ≠ g)
    (hsize : termSize (.app f sargs) + termSize (.app g targs) ≤ 101) :
    (symPrecedence prec f g = .greaterThan →
      (lrpoGreater prec (.app f sargs) (.app g targs) = true
        ↔ ∀ t ∈ targs, lrpoGreater prec (.app f sargs) t = true))
    ∧ ((symPrecedence prec f g = .lessThan ∨ symPrecedence prec f g = .notComparable) →
      (lrpoGreater prec (.app f sargs) (.app g targs) = true
        ↔ ∃ s ∈ sargs, lrpoGreaterOrEqual prec s (.app g targs) = true)) := by
  have hfg2 : ¬ ((f == g && sargs.length == targs.length) = true) := by
    simp [hfg]
  have hkey : lrpoGreater prec (.app f sargs) (.app g targs)
      = (match symPrecedence prec f g with
         | .sameAs => false
         | .greaterThan => targs.all (fun ta => lrpoGtF prec 100 (.app f sargs) ta)
         | .lessThan => sargs.any (fun sa =>
             termsIdentical sa (.app g targs) || lrpoGtF prec 100 sa (.app g targs))
         | .notComparable => sargs.any (fun sa =>
             termsIdentical sa (.app g targs) || lrpoGtF prec 100 sa (.app g targs))) := by
    rw [lrpoGreater, show (101 : Nat) = 100 + 1 from rfl, lrpoGtF_succ_app_app,
      if_neg hfg2]
  have hstabL : ∀ t ∈ targs,
      lrpoGtF prec 100 (.app f sargs) t = lrpoGtF prec 101 (.app f sargs) t := by
    intro t ht
    have h1 : termSize t ≤ termListSize targs := termSize_le_listSize targs t ht
    rw [termSize_app, termSize_app] at hsize
    exact lrpoGtF_stable prec (termSize (.app f sargs) + termSize t)
      (.app f sargs) t (le_refl _) 100 101
      (by rw [termSize_app]; omega) (by rw [termSize_app]; omega)
  have hstabR : ∀ s ∈ sargs,
      lrpoGtF prec 100 s (.app g targs) = lrpoGtF prec 101 s (.app g targs) := by
    intro s hs
    have h1 : termSize s ≤ termListSize sargs := termSize_le_listSize sargs s hs
    rw [termSize_app, termSize_app] at hsize
    exact lrpoGtF_stable prec (termSize s + termSize (.app g targs))
      s (.app g targs) (le_refl _) 100 101
      (by rw [termSize_app]; omega) (by rw [termSize_app]; omega)
  constructor
  · intro hgt
    rw [hkey, hgt]
    rw [list_all_congr _ (fun ta => lrpoGtF prec 101 (.app f sargs) ta) targs hstabL]
    exact List.all_eq_true
  · intro hlt
    have hmatch : (match symPrecedence prec f g with
         | Prec.sameAs => false
         | Prec.greaterThan => targs.all (fun ta => lrpoGtF prec 100 (.app f sargs) ta)
         | Prec.lessThan => sargs.any (fun sa =>
             termsIdentical sa (.app g targs) || lrpoGtF prec 100 sa (.app g targs))
         | Prec.notComparable => sargs.any (fun sa =>
             termsIdentical sa (.app g targs) || lrpoGtF prec 100 sa (.app g targs)))
        = sargs.any (fun sa =>
            termsIdentical sa (.app g targs) || lrpoGtF prec 100 sa (.app g targs)) := by
      rcases hlt with h | h
      · rw [h]
      · rw [h]
    rw [hkey, hmatch]
    rw [list_any_congr _ (fun sa =>
        termsIdentical sa (.app g targs) || lrpoGtF prec 101 sa (.app g targs)) sargs
      (fun s hs => by rw [hstabR s hs])]
    rw [List.any_eq_true]
    constructor
    · rintro ⟨s, hs, hval⟩
      exact ⟨s, hs, hval⟩
    · rintro ⟨s, hs, hval⟩
      exact ⟨s, hs, hval⟩

/-- The precedence list of the C7 counterexample: `f` (symbol 1) higher
than `g` (symbol 2); the constant `a` (symbol 10) has no precedence. -/
def c7prec : List (Nat × Nat) := [(1, 1), (2, 2)]

/-- The term `f(a)` of the C7 counterexample. -/
def c7fa : Term := .app 1 [.app 10 []]

/-- The chain `g(g(…g(a)…))` with `n` applications of `g`. -/
def c7chain : Nat → Term
  | 0 => .app 10 []
  | n+1 => .app 2 [c7chain n]

set_option maxRecDepth 8000 in
/-- C7 counterexample: `f ≻ g`, yet `f(a) > g^101(a)` is false (the
depth cap fires) while `f(a) > g^100(a)` — the only argument of
`g^101(a)` — is true; the claimed biconditional fails at depth 101. -/
theorem claim_C7_counterexample :
    symPrecedence c7prec 1 2 = Prec.greaterThan
    ∧ c7chain 101 = Term.app 2 [c7chain 100]
    ∧ lrpoGreater c7prec c7fa (c7chain 101) = false
    ∧ lrpoGreater c7prec c7fa (c7chain 100) = true := by
  exact ⟨by decide, rfl, by decide, by decide⟩

/-- C7 witness: the characterisation applied to `f(a)` vs `g(a)` (sizes
well below the cap). -/
theorem claim_C7_witness :
    ((1 : Nat) ≠ 2
      ∧ termSize (.app 1 [.app 10 []]) + termSize (.app 2 [.app 10 []]) ≤ 101)
    ∧ ((symPrecedence c7prec 1 2 = .greaterThan →
        (lrpoGreater c7prec (.app 1 [.app 10 []]) (.app 2 [.app 10 []]) = true
          ↔ ∀ t ∈ [Term.app 10 []],
              lrpoGreater c7prec (.app 1 [.app 10 []]) t = true))
      ∧ ((symPrecedence c7prec 1 2 = .lessThan
            ∨ symPrecedence c7prec 1 2 = .notComparable) →
        (lrpoGreater c7prec (.app 1 [.app 10 []]) (.app 2 [.app 10 []]) = true
          ↔ ∃ s ∈ [Term.app 10 []],
              lrpoGreaterOrEqual c7prec s (.app 2 [.app 10 []]) = true))) :=
  ⟨⟨by decide, by decide⟩,
    claim_C7 c7prec 1 2 [.app 10 []] [.app 10 []] (by decide) (by decide)⟩

/-! ## C8 -/

mutual
/-- Formulated from the spec's words, for comparison with the code-side
occurrence checks: variable number `x` occurs in a term. -/
def varOccurs (x : Nat) : Term → Bool
  | .var w => x == w
  | .app _ args => varOccursList x args
/-- `varOccurs` over a list of terms. -/
def varOccursList (x : Nat) : List Term → Bool
  | [] => false
  | t :: ts => varOccurs x t || varOccursList x ts
end

/-- Formulated from the spec's words: variable `x` occurs PROPERLY in a
term (occurs in it and is not the whole term); for an application this
is occurrence in some argument, for a variable it is false. -/
def occursProperly (x : Nat) : Term → Bool
  | .var _ => false
  | .app _ args => varOccursList x args

mutual
/-- Nesting depth of a term (support definition for fuel bounds; not
part of the Rust code). -/
def termDepth : Term → Nat
  | .var _ => 1
  | .app _ args => 1 + termDepthList args
/-- Maximum depth over a list of terms. -/
def termDepthList : List Term → Nat
  | [] => 0
  | t :: ts => max (termDepth t) (termDepthList ts)
end

theorem termDepth_pos : ∀ t : Term, 1 ≤ termDepth t
  | .var _ => by simp [termDepth]
  | .app _ _ => by simp [termDepth]

theorem termDepth_le_listDepth :
    ∀ (l : List Term) (a : Term), a ∈ l → termDepth a ≤ termDepthList l := by
  intro l
  induction l with
  | nil => intro a ha; cases ha
  | cons t ts ih =>
    intro a ha
    rw [show termDepthList (t :: ts) = max (termDepth t) (termDepthList ts) from rfl]
    rcases List.mem_cons.mp ha with h | h
    · subst h; exact Nat.le_max_left _ _
    · exact le_trans (ih a h) (Nat.le_max_right _ _)

theorem varOccursList_eq_any :
    ∀ (x : Nat) (l : List Term), varOccursList x l = l.any (fun a => varOccurs x a)
  | _, [] => rfl
  | x, t :: ts => by
    simp [varOccursList, List.any_cons, varOccursList_eq_any x ts]

mutual
theorem occursInImpl_var :
    ∀ (x : Nat) (t : Term), occursInImpl (Term.var x) t = varOccurs x t
  | x, .var w => by simp [occursInImpl, varOccurs, termsIdentical]
  | x, .app s args => by
    simp [occursInImpl, varOccurs, termsIdentical, occursInArgs_var x args]
theorem occursInArgs_var :
    ∀ (x : Nat) (l : List Term), occursInArgs (Term.var x) l = varOccursList x l
  | _, [] => rfl
  | x, t :: ts => by
    simp [occursInArgs, varOccursList, occursInImpl_var x t, occursInArgs_var x ts]
end

/-- The capped occurrence check of src/inference/lrpo.rs agrees with the
spec-side occurrence predicate whenever the term's nesting depth fits in
the remaining fuel. -/
theorem occursInDF_var :
    ∀ (n x : Nat) (t : Term), termDepth t ≤ n →
      occursInDF n (Term.var x) t = varOccurs x t := by
  intro n
  induction n with
  | zero =>
    intro x t ht
    exact absurd (le_trans (termDepth_pos t) ht) (by omega)
  | succ n ih =>
    intro x t ht
    cases t with
    | var w =>
      have h0 : occursInDF (n+1) (Term.var x) (Term.var w)
          = (if (x == w : Bool) then true else false) := rfl
      rw [h0]
      cases h : (x == w : Bool) <;> simp [varOccurs, h]
    | app s args =>
      have h0 : occursInDF (n+1) (Term.var x) (Term.app s args)
          = args.any (fun a => occursInDF n (Term.var x) a) := rfl
      rw [h0]
      have hd : termDepthList args ≤ n := by
        have h1 : termDepth (Term.app s args) = 1 + termDepthList args := rfl
        omega
      rw [list_any_congr _ (fun a => varOccurs x a) args
        (fun a ha => ih x a (le_trans (termDepth_le_listDepth args a ha) hd))]
      exact (varOccursList_eq_any x args).symm

/-- C8 (amended): a variable is never LRPO-greater than anything, in
both modules; in src/data/ordering.rs an application is greater than a
variable exactly when the variable occurs properly in it (the occurrence
check there is uncapped); in src/inference/lrpo.rs the same holds only
when the application's nesting depth stays within the depth cap
(`termDepth ≤ MAX_LRPO_DEPTH + 1 = 501`) — beyond it the capped
occurrence check gives up and the direction "occurs properly ⇒ greater"
fails. -/
theorem claim_C8 :
    (∀ (prec : List (Nat × Nat)) (x : Nat) (t : Term),
      lrpoGreater prec (Term.var x) t = false)
    ∧ (∀ (x : Nat) (t : Term), lrpoGreaterSimple (Term.var x) t = false)
    ∧ (∀ (prec : List (Nat × Nat)) (f : Nat) (args : List Term) (v : Nat),
      lrpoGreater prec (Term.app f args) (Term.var v)
        = occursProperly v (Term.app f args))
    ∧ (∀ (f : Nat) (args : List Term) (v : Nat),
      termDepth (Term.app f args) ≤ 501 →
      lrpoGreaterSimple (Term.app f args) (Term.var v)
        = occursProperly v (Term.app f args)) := by
  refine ⟨?_, ?_, ?_, ?_⟩
  · intro prec x t
    rfl
  · intro x t
    have h : lrpoDF 501 (Term.var x) t
        = (if termsEqualF 501 (Term.var x) t then Ordering4.equal else Ordering4.less) := rfl
    unfold lrpoGreaterSimple
    rw [h]
    by_cases hc : termsEqualF 501 (Term.var x) t = true
    · rw [if_pos hc]; rfl
    · rw [if_neg hc]; rfl
  · intro prec f args v
    have h1 : lrpoGreater prec (Term.app f args) (Term.var v)
        = occursInImpl (Term.var v) (Term.app f args) := rfl
    rw [h1, occursInImpl_var v (Term.app f args)]
    rfl
  · intro f args v hdep
    have h1 : lrpoDF 501 (Term.app f args) (Term.var v)
        = (if occursInDF 501 (Term.var v) (Term.app f args) then Ordering4.greater
           else Ordering4.incomparable) := rfl
    unfold lrpoGreaterSimple
    rw [h1, occursInDF_var 501 v (Term.app f args) hdep,
      show occursProperly v (Term.app f args) = varOccurs v (Term.app f args) from rfl]
    by_cases hc : varOccurs v (Term.app f args) = true
    · rw [if_pos hc, hc]; rfl
    · rw [if_neg hc]
      rw [Bool.not_eq_true] at hc
      rw [hc]
      rfl

/-- Nested chain `g(g(…g(v₀)…))` with `n` applications of `g` around the
variable `v₀`, used to exceed the lrpo.rs depth cap. -/
def c8chain : Nat → Term
  | 0 => .var 0
  | n+1 => .app 2 [c8chain n]

set_option maxRecDepth 20000 in
/-- C8 counterexample for the lrpo.rs half at depth 502: the variable
occurs properly in `g^501(v₀)`, yet `lrpo_greater` returns false (the
capped occurrence check runs out of depth), while one level shallower it
returns true; the uncapped ordering.rs comparison handles the deep term
correctly. -/
theorem claim_C8_counterexample :
    occursProperly 0 (c8chain 501) = true
    ∧ lrpoGreaterSimple (c8chain 501) (Term.var 0) = false
    ∧ lrpoGreaterSimple (c8chain 500) (Term.var 0) = true
    ∧ lrpoGreater [] (c8chain 501) (Term.var 0) = true := by
  exact ⟨by decide, by decide, by decide, by decide⟩

/-- C8 witness: the depth-bounded lrpo.rs half applied to `f(v₀)` vs
`v₀`. -/
theorem claim_C8_witness :
    termDepth (Term.app 1 [Term.var 0]) ≤ 501
    ∧ lrpoGreaterSimple (Term.app 1 [Term.var 0]) (Term.var 0)
        = occursProperly 0 (Term.app 1 [Term.var 0]) :=
  ⟨by decide, claim_C8.2.2.2 1 [Term.var 0] 0 (by decide)⟩

/-! ## C9 -/

theorem termsIdentical_refl (t : Term) : termsIdentical t t = true :=
  (termsIdentical_iff t t).mpr rfl

theorem lrpoLexAux_self (gt : Term → Term → Bool) (t1 t2 : Term) :
    ∀ l : List Term, lrpoLexAux gt t1 t2 l l = false := by
  intro l
  induction l with
  | nil => rfl
  | cons a as ih =>
    rw [show lrpoLexAux gt t1 t2 (a :: as) (a :: as)
        = if termsIdentical a a then lrpoLexAux gt t1 t2 as as
          else if gt a a then as.all (fun x => gt t1 x)
          else as.any (fun y => termsIdentical y t2 || gt y t2) from rfl,
      if_pos (termsIdentical_refl a)]
    exact ih

theorem lrpoGtF_irrefl (prec : List (Nat × Nat)) (n : Nat) :
    ∀ t : Term, lrpoGtF prec (n+1) t t = false := by
  intro t
  cases t with
  | var x => rfl
  | app f args =>
    rw [lrpoGtF_succ_app_app, if_pos (by simp)]
    exact lrpoLexAux_self _ _ _ args

/-- Precedence list of the first C9 counterexample: symbols f = 1 and
g = 2 share the precedence value 1 (distinct symbols, same precedence:
the stubbed multiset case), h = 3 has value 0, the constant a = 4 has
value 3.  Every symbol has a defined precedence. -/
def c9prec1 : List (Nat × Nat) := [(1,1),(2,1),(3,0),(4,3)]

/-- `f(h(a))`. -/
def c9s1 : Term := .app 1 [.app 3 [.app 4 []]]

/-- `h(a)`. -/
def c9t1 : Term := .app 3 [.app 4 []]

/-- `g(a)`. -/
def c9u1 : Term := .app 2 [.app 4 []]

/-- Precedence list of the second C9 counterexample: f = 1 ↦ 0,
g = 2 ↦ 1, h = 3 ↦ 2, a = 4 ↦ 4 — all defined and pairwise distinct
(injective), so the multiset stub is never reached. -/
def c9prec2 : List (Nat × Nat) := [(1,0),(2,1),(3,2),(4,4)]

/-- `h^n(f(a))`. -/
def hchain : Nat → Term
  | 0 => Term.app 1 [Term.app 4 []]
  | n+1 => Term.app 3 [hchain n]

/-- `g^n(a)`. -/
def gchain2 : Nat → Term
  | 0 => Term.app 4 []
  | n+1 => Term.app 2 [gchain2 n]

/-! ## Transitivity development -/

/-- The LRPO comparison of src/data/ordering.rs run with exactly enough
fuel for the two terms: by `lrpoGtF_stable` this is the common value of
`lrpoGtF prec n s t` for every `n ≥ termSize s + termSize t`, and in
particular of `lrpoGreater` whenever the terms fit in the depth cap. -/
def GTb (prec : List (Nat × Nat)) (s t : Term) : Bool :=
  lrpoGtF prec (termSize s + termSize t) s t

/-- `GTb` agrees with `lrpoGtF` at any sufficient fuel. -/
theorem GTb_eq_fuel (prec : List (Nat × Nat)) (s t : Term) (n : Nat)
    (h : termSize s + termSize t ≤ n) : lrpoGtF prec n s t = GTb prec s t :=
  lrpoGtF_stable prec (termSize s + termSize t) s t (le_refl _) n
    (termSize s + termSize t) h (le_refl _)

/-- Proper-subterm relation: `PSub w t` holds when `w` is an argument of
`t` or a proper subterm of an argument. -/
inductive PSub : Term → Term → Prop where
  | arg : ∀ {w : Term} {f : Nat} {args : List Term}, w ∈ args → PSub w (.app f args)
  | deep : ∀ {w a : Term} {f : Nat} {args : List Term},
      a ∈ args → PSub w a → PSub w (.app f args)

theorem PSub_size_lt : ∀ {w t : Term}, PSub w t → termSize w < termSize t := by
  intro w t h
  induction h with
  | arg hm =>
    rw [termSize_app]
    have := termSize_le_listSize _ _ hm
    omega
  | deep hm _ ih =>
    rw [termSize_app]
    have := termSize_le_listSize _ _ hm
    omega

theorem PSub_trans : ∀ {w a t : Term}, PSub w a → PSub a t → PSub w t := by
  intro w a t h1 h2
  induction h2 with
  | arg hm => exact PSub.deep hm h1
  | deep hm _ ih => exact PSub.deep hm ih

theorem PSub_of_mem_arg {w a : Term} {f : Nat} {args : List Term}
    (ha : a ∈ args) (hw : w = a ∨ PSub w a) : PSub w (.app f args) := by
  rcases hw with rfl | hw
  · exact PSub.arg ha
  · exact PSub.deep ha hw

mutual
/-- Every symbol of the term has a precedence entry whose value is given
by the ambient valuation `pv` (support definition for the transitivity
hypotheses). -/
def precDefined (prec : List (Nat × Nat)) (pv : Nat → Nat) : Term → Bool
  | .var _ => true
  | .app f args => (getPrecedence prec f == some (pv f)) && precDefinedList prec pv args
/-- `precDefined` over a list of terms. -/
def precDefinedList (prec : List (Nat × Nat)) (pv : Nat → Nat) : List Term → Bool
  | [] => true
  | t :: ts => precDefined prec pv t && precDefinedList prec pv ts
end

mutual
/-- Every application node uses its symbol at the arity given by the
ambient arity assignment `ar` (arity coherence: the same symbol is never
used at two different arities). -/
def arityCoherent (ar : Nat → Nat) : Term → Bool
  | .var _ => true
  | .app f args => (args.length == ar f) && arityCoherentList ar args
/-- `arityCoherent` over a list of terms. -/
def arityCoherentList (ar : Nat → Nat) : List Term → Bool
  | [] => true
  | t :: ts => arityCoherent ar t && arityCoherentList ar ts
end

/-- Combined well-formedness used by the transitivity hypotheses. -/
def WfT (prec : List (Nat × Nat)) (pv ar : Nat → Nat) (t : Term) : Prop :=
  precDefined prec pv t = true ∧ arityCoherent ar t = true

theorem precDefinedList_mem {prec : List (Nat × Nat)} {pv : Nat → Nat} :
    ∀ {l : List Term}, precDefinedList prec pv l = true →
      ∀ {a : Term}, a ∈ l → precDefined prec pv a = true := by
  intro l
  induction l with
  | nil => intro _ a ha; cases ha
  | cons t ts ih =>
    intro h a ha
    rw [show precDefinedList prec pv (t :: ts)
        = (precDefined prec pv t && precDefinedList prec pv ts) from rfl] at h
    rcases List.mem_cons.mp ha with rfl | ha
    · exact (Bool.and_eq_true_iff.mp h).1
    · exact ih (Bool.and_eq_true_iff.mp h).2 ha

theorem arityCoherentList_mem {ar : Nat → Nat} :
    ∀ {l : List Term}, arityCoherentList ar l = true →
      ∀ {a : Term}, a ∈ l → arityCoherent ar a = true := by
  intro l
  induction l with
  | nil => intro _ a ha; cases ha
  | cons t ts ih =>
    intro h a ha
    rw [show arityCoherentList ar (t :: ts)
        = (arityCoherent ar t && arityCoherentList ar ts) from rfl] at h
    rcases List.mem_cons.mp ha with rfl | ha
    · exact (Bool.and_eq_true_iff.mp h).1
    · exact ih (Bool.and_eq_true_iff.mp h).2 ha

theorem WfT_arg {prec : List (Nat × Nat)} {pv ar : Nat → Nat} {f : Nat}
    {args : List Term} (h : WfT prec pv ar (.app f args)) :
    ∀ {a : Term}, a ∈ args → WfT prec pv ar a := by
  intro a ha
  obtain ⟨hp, hc⟩ := h
  rw [show precDefined prec pv (.app f args)
      = ((getPrecedence prec f == some (pv f)) && precDefinedList prec pv args) from rfl] at hp
  rw [show arityCoherent ar (.app f args)
      = ((args.length == ar f) && arityCoherentList ar args) from rfl] at hc
  exact ⟨precDefinedList_mem (Bool.and_eq_true_iff.mp hp).2 ha,
    arityCoherentList_mem (Bool.and_eq_true_iff.mp hc).2 ha⟩

theorem WfT_sub {prec : List (Nat × Nat)} {pv ar : Nat → Nat} {w t : Term}
    (hsub : PSub w t) (h : WfT prec pv ar t) : WfT prec pv ar w := by
  induction hsub with
  | arg hm => exact WfT_arg h hm
  | deep hm _ ih => exact ih (WfT_arg h hm)

theorem WfT_root_prec {prec : List (Nat × Nat)} {pv ar : Nat → Nat} {f : Nat}
    {args : List Term} (h : WfT prec pv ar (.app f args)) :
    getPrecedence prec f = some (pv f) := by
  obtain ⟨hp, _⟩ := h
  rw [show precDefined prec pv (.app f args)
      = ((getPrecedence prec f == some (pv f)) && precDefinedList prec pv args) from rfl] at hp
  exact beq_iff_eq.mp (Bool.and_eq_true_iff.mp hp).1

theorem WfT_root_arity {prec : List (Nat × Nat)} {pv ar : Nat → Nat} {f : Nat}
    {args : List Term} (h : WfT prec pv ar (.app f args)) :
    args.length = ar f := by
  obtain ⟨_, hc⟩ := h
  rw [show arityCoherent ar (.app f args)
      = ((args.length == ar f) && arityCoherentList ar args) from rfl] at hc
  exact beq_iff_eq.mp (Bool.and_eq_true_iff.mp hc).1

theorem lrpoGtF_var_any (prec : List (Nat × Nat)) (x : Nat) (t : Term) :
    ∀ n, lrpoGtF prec n (.var x) t = false := by
  intro n
  cases n with
  | zero => rfl
  | succ n => exact lrpoGtF_var prec n x t

theorem GTb_var (prec : List (Nat × Nat)) (x : Nat) (t : Term) :
    GTb prec (.var x) t = false :=
  lrpoGtF_var_any prec x t _

theorem GTb_app_var (prec : List (Nat × Nat)) (f : Nat) (sargs : List Term) (v : Nat) :
    GTb prec (.app f sargs) (.var v) = varOccurs v (.app f sargs) := by
  show lrpoGtF prec (termSize (.app f sargs) + 1) (.app f sargs) (.var v) = _
  rw [lrpoGtF_app_var]
  show occursInImpl (.var v) (.app f sargs) = _
  exact occursInImpl_var v _

theorem GTb_irrefl (prec : List (Nat × Nat)) (t : Term) : GTb prec t t = false := by
  have h : termSize t + termSize t = (termSize t + termSize t - 1) + 1 := by
    have := termSize_pos t
    omega
  unfold GTb
  rw [h]
  exact lrpoGtF_irrefl prec _ t

theorem GTb_app_app (prec : List (Nat × Nat)) (f g : Nat) (sargs targs : List Term) :
    GTb prec (.app f sargs) (.app g targs)
      = (if f == g && sargs.length == targs.length then
          lrpoLexAux (GTb prec) (.app f sargs) (.app g targs) sargs targs
        else
          match symPrecedence prec f g with
          | .sameAs => false
          | .greaterThan => targs.all (fun ta => GTb prec (.app f sargs) ta)
          | .lessThan => sargs.any (fun sa =>
              termsIdentical sa (.app g targs) || GTb prec sa (.app g targs))
          | .notComparable => sargs.any (fun sa =>
              termsIdentical sa (.app g targs) || GTb prec sa (.app g targs))) := by
  have hS := termSize_pos (Term.app f sargs)
  have hT := termSize_pos (Term.app g targs)
  obtain ⟨M, hM⟩ : ∃ M, termSize (Term.app f sargs) + termSize (Term.app g targs) = M + 1 :=
    ⟨termSize (Term.app f sargs) + termSize (Term.app g targs) - 1, by omega⟩
  have hMS : termSize (Term.app f sargs) ≤ M + 1 := by omega
  have hargL : ∀ a ∈ sargs, termSize a + 1 ≤ termSize (Term.app f sargs) := by
    intro a ha
    have := termSize_le_listSize sargs a ha
    rw [termSize_app]
    omega
  have hargR : ∀ b ∈ targs, termSize b + 1 ≤ termSize (Term.app g targs) := by
    intro b hb
    have := termSize_le_listSize targs b hb
    rw [termSize_app]
    omega
  have hpair : ∀ a ∈ sargs, ∀ b ∈ targs,
      lrpoGtF prec M a b = GTb prec a b := by
    intro a ha b hb
    exact GTb_eq_fuel prec a b M (by have := hargL a ha; have := hargR b hb; omega)
  have hleft : ∀ b ∈ targs,
      lrpoGtF prec M (Term.app f sargs) b = GTb prec (Term.app f sargs) b := by
    intro b hb
    exact GTb_eq_fuel prec _ b M (by have := hargR b hb; omega)
  have hright : ∀ a ∈ sargs,
      lrpoGtF prec M a (Term.app g targs) = GTb prec a (Term.app g targs) := by
    intro a ha
    exact GTb_eq_fuel prec a _ M (by have := hargL a ha; omega)
  unfold GTb
  rw [hM, lrpoGtF_succ_app_app]
  by_cases hc : (f == g && sargs.length == targs.length) = true
  · rw [if_pos hc, if_pos hc]
    exact lrpoLexAux_congr _ _ _ _ sargs targs hpair hleft hright
  · rw [if_neg hc, if_neg hc]
    cases hp : symPrecedence prec f g
    · rfl
    · show targs.all (fun ta => lrpoGtF prec M (Term.app f sargs) ta)
        = targs.all (fun ta => GTb prec (Term.app f sargs) ta)
      exact list_all_congr _ _ targs hleft
    · show sargs.any (fun sa =>
          termsIdentical sa (Term.app g targs) || lrpoGtF prec M sa (Term.app g targs))
        = sargs.any (fun sa =>
          termsIdentical sa (Term.app g targs) || GTb prec sa (Term.app g targs))
      exact list_any_congr _ _ sargs (fun a ha => by rw [hright a ha])
    · show sargs.any (fun sa =>
          termsIdentical sa (Term.app g targs) || lrpoGtF prec M sa (Term.app g targs))
        = sargs.any (fun sa =>
          termsIdentical sa (Term.app g targs) || GTb prec sa (Term.app g targs))
      exact list_any_congr _ _ sargs (fun a ha => by rw [hright a ha])

theorem symPrecedence_same (prec : List (Nat × Nat)) (f : Nat) :
    symPrecedence prec f f = .sameAs := by
  simp [symPrecedence]

theorem symPrecedence_char (prec : List (Nat × Nat)) (pv : Nat → Nat) {f g : Nat}
    (hf : getPrecedence prec f = some (pv f)) (hg : getPrecedence prec g = some (pv g))
    (hinj : pv f = pv g → f = g) (hfg : f ≠ g) :
    symPrecedence prec f g = (if pv f < pv g then Prec.greaterThan else Prec.lessThan) := by
  unfold symPrecedence
  rw [if_neg (by simp [hfg]), hf, hg]
  dsimp only
  by_cases h1 : pv f < pv g
  · rw [if_pos h1, if_pos h1]
  · rw [if_neg h1, if_neg h1]
    have h2 : pv f > pv g := by
      rcases Nat.lt_trichotomy (pv f) (pv g) with h | h | h
      · exact absurd h h1
      · exact absurd (hinj h) hfg
      · exact h
    rw [if_pos h2]

/-- What `lrpo_lex` computes, in decomposition form: the two lists share
a common prefix, differ first at `a` vs `b`, and either `a > b` with the
whole left term above every later right argument, or not, with some
later left argument `≥` the whole right term. -/
def lexSpec (gt : Term → Term → Bool) (S T : Term) (l1 l2 : List Term) : Prop :=
  ∃ P a as b bs, l1 = P ++ a :: as ∧ l2 = P ++ b :: bs ∧ a ≠ b ∧
    ((gt a b = true ∧ ∀ x ∈ bs, gt S x = true) ∨
     (gt a b = false ∧ ∃ y ∈ as, y = T ∨ gt y T = true))

theorem lexSpec_cons_iff (gt : Term → Term → Bool) (S T : Term) (a : Term)
    (l1 l2 : List Term) :
    lexSpec gt S T (a :: l1) (a :: l2) ↔ lexSpec gt S T l1 l2 := by
  constructor
  · rintro ⟨P, a', as, b', bs, h1, h2, hne, hbr⟩
    cases P with
    | nil =>
      simp only [List.nil_append] at h1 h2
      injection h1 with h1a h1b
      injection h2 with h2a h2b
      exact absurd (h1a.symm.trans h2a) hne
    | cons p P' =>
      injection h1 with h1a h1b
      injection h2 with h2a h2b
      exact ⟨P', a', as, b', bs, h1b, h2b, hne, hbr⟩
  · rintro ⟨P, a', as, b', bs, h1, h2, hne, hbr⟩
    exact ⟨a :: P, a', as, b', bs, by rw [h1]; rfl, by rw [h2]; rfl, hne, hbr⟩

theorem lexAux_iff (gt : Term → Term → Bool) (S T : Term) :
    ∀ l1 l2 : List Term, lrpoLexAux gt S T l1 l2 = true ↔ lexSpec gt S T l1 l2 := by
  intro l1
  induction l1 with
  | nil =>
    intro l2
    constructor
    · intro h
      exact absurd h (by cases l2 <;> simp [lrpoLexAux])
    · rintro ⟨P, a', as, b', bs, h1, _, _, _⟩
      exact absurd h1.symm (by simp)
  | cons a as ih =>
    intro l2
    cases l2 with
    | nil =>
      constructor
      · intro h
        exact absurd h (by simp [lrpoLexAux])
      · rintro ⟨P, a', as', b', bs, _, h2, _, _⟩
        exact absurd h2.symm (by simp)
    | cons b bs =>
      have hunf : lrpoLexAux gt S T (a :: as) (b :: bs)
          = if termsIdentical a b then lrpoLexAux gt S T as bs
            else if gt a b then bs.all (fun x => gt S x)
            else as.any (fun y => termsIdentical y T || gt y T) := rfl
      by_cases hab : termsIdentical a b = true
      · have haeq : a = b := (termsIdentical_iff a b).mp hab
        subst haeq
        rw [hunf, if_pos hab, ih bs, lexSpec_cons_iff]
      · have hane : a ≠ b := fun h => hab ((termsIdentical_iff a b).mpr h)
        rw [hunf, if_neg hab]
        constructor
        · intro h
          by_cases hg : gt a b = true
          · rw [if_pos hg] at h
            refine ⟨[], a, as, b, bs, rfl, rfl, hane, Or.inl ⟨hg, ?_⟩⟩
            exact fun x hx => List.all_eq_true.mp h x hx
          · rw [if_neg hg] at h
            refine ⟨[], a, as, b, bs, rfl, rfl, hane, Or.inr ⟨Bool.eq_false_iff.mpr hg, ?_⟩⟩
            obtain ⟨y, hy, hval⟩ := List.any_eq_true.mp h
            rcases Bool.or_eq_true_iff.mp hval with h1 | h1
            · exact ⟨y, hy, Or.inl ((termsIdentical_iff y T).mp h1)⟩
            · exact ⟨y, hy, Or.inr h1⟩
        · rintro ⟨P, a', as', b', bs', h1, h2, hne, hbr⟩
          have hP : P = [] := by
            cases P with
            | nil => rfl
            | cons p P' =>
              injection h1 with h1a _
              injection h2 with h2a _
              exact absurd (h1a.trans h2a.symm) hane
          subst hP
          simp only [List.nil_append] at h1 h2
          injection h1 with h1a h1b
          injection h2 with h2a h2b
          subst h1a; subst h1b; subst h2a; subst h2b
          rcases hbr with ⟨hg, hall⟩ | ⟨hg, y, hy, hval⟩
          · rw [if_pos hg]
            exact List.all_eq_true.mpr hall
          · rw [if_neg (by rw [hg]; exact Bool.false_ne_true)]
            refine List.any_eq_true.mpr ⟨y, hy, ?_⟩
            rcases hval with rfl | hval
            · exact Bool.or_eq_true_iff.mpr (Or.inl (termsIdentical_refl y))
            · exact Bool.or_eq_true_iff.mpr (Or.inr hval)

theorem varOccursList_of_mem {v : Nat} :
    ∀ {l : List Term} {a : Term}, a ∈ l → varOccurs v a = true →
      varOccursList v l = true := by
  intro l
  induction l with
  | nil => intro a ha; cases ha
  | cons t ts ih =>
    intro a ha hv
    rw [show varOccursList v (t :: ts) = (varOccurs v t || varOccursList v ts) from rfl]
    rcases List.mem_cons.mp ha with rfl | ha
    · exact Bool.or_eq_true_iff.mpr (Or.inl hv)
    · exact Bool.or_eq_true_iff.mpr (Or.inr (ih ha hv))

theorem varOccursList_exists {v : Nat} {l : List Term}
    (h : varOccursList v l = true) : ∃ a ∈ l, varOccurs v a = true := by
  rw [varOccursList_eq_any] at h
  exact List.any_eq_true.mp h

theorem PSub_var_occurs {v : Nat} : ∀ {t : Term}, PSub (.var v) t →
    varOccurs v t = true := by
  intro t h
  induction h with
  | arg hm =>
    exact varOccursList_of_mem hm (by simp [varOccurs])
  | deep hm _ ih =>
    exact varOccursList_of_mem hm ih

/-- Variables of the smaller term occur in the greater term
(`vars(t) ⊆ vars(s)` when `s > t`). -/
theorem GTb_vars (prec : List (Nat × Nat)) :
    ∀ (k : Nat) (s t : Term), termSize s + termSize t ≤ k →
      GTb prec s t = true → ∀ v, varOccurs v t = true → varOccurs v s = true := by
  intro k
  induction k using Nat.strong_induction_on with
  | _ k ih =>
    intro s t hk hgt v hv
    cases s with
    | var x => exact absurd (GTb_var prec x t ▸ hgt) Bool.false_ne_true
    | app f sargs =>
      cases t with
      | var w =>
        rw [GTb_app_var] at hgt
        have hvw : v = w := by
          rw [show varOccurs v (Term.var w) = (v == w) from rfl] at hv
          exact beq_iff_eq.mp hv
        exact hvw ▸ hgt
      | app g targs =>
        have hSsz := termSize_pos (Term.app f sargs)
        have hs : ∀ a ∈ sargs, termSize a < termSize (Term.app f sargs) := by
          intro a ha
          have := termSize_le_listSize sargs a ha
          rw [termSize_app]
          omega
        have ht : ∀ b ∈ targs, termSize b < termSize (Term.app g targs) := by
          intro b hb
          have := termSize_le_listSize targs b hb
          rw [termSize_app]
          omega
        have hmem : ∀ a ∈ sargs, varOccurs v a = true →
            varOccurs v (Term.app f sargs) = true := by
          intro a ha hva
          exact varOccursList_of_mem ha hva
        rw [GTb_app_app] at hgt
        by_cases hc : (f == g && sargs.length == targs.length) = true
        · rw [if_pos hc] at hgt
          obtain ⟨P, a, as, b, bs, hl1, hl2, hne, hbr⟩ :=
            (lexAux_iff (GTb prec) _ _ sargs targs).mp hgt
          rcases hbr with ⟨hgab, hall⟩ | ⟨_, y, hy, hyv⟩
          · obtain ⟨x, hx, hvx⟩ := varOccursList_exists
              (show varOccursList v targs = true from hv)
            rw [hl2] at hx
            rcases List.mem_append.mp hx with hxP | hxcons
            · exact hmem x (by rw [hl1]; exact List.mem_append.mpr (Or.inl hxP)) hvx
            · rcases List.mem_cons.mp hxcons with rfl | hxbs
              · have hamem : a ∈ sargs := by
                  rw [hl1]; exact List.mem_append.mpr (Or.inr (List.mem_cons_self a as))
                have hbmem : x ∈ targs := by rw [hl2]; exact hx
                have hva : varOccurs v a = true :=
                  ih (termSize a + termSize x)
                    (by have := hs a hamem; have := ht x hbmem; omega)
                    a x (le_refl _) hgab v hvx
                exact hmem a hamem hva
              · have hxmem : x ∈ targs := by rw [hl2]; exact hx
                exact ih (termSize (Term.app f sargs) + termSize x)
                  (by have := ht x hxmem; omega)
                  _ x (le_refl _) (hall x hxbs) v hvx
          · have hymem : y ∈ sargs := by
              rw [hl1]
              exact List.mem_append.mpr (Or.inr (List.mem_cons_of_mem a hy))
            rcases hyv with heq | hgy
            · exact hmem y hymem (by rw [heq]; exact hv)
            · have hvy : varOccurs v y = true :=
                ih (termSize y + termSize (Term.app g targs))
                  (by have := hs y hymem; omega)
                  y _ (le_refl _) hgy v hv
              exact hmem y hymem hvy
        · rw [if_neg hc] at hgt
          cases hp : symPrecedence prec f g <;> rw [hp] at hgt
          · exact absurd hgt Bool.false_ne_true
          · have hgt' : targs.all (fun ta => GTb prec (Term.app f sargs) ta) = true := hgt
            obtain ⟨x, hx, hvx⟩ := varOccursList_exists
              (show varOccursList v targs = true from hv)
            exact ih (termSize (Term.app f sargs) + termSize x)
              (by have := ht x hx; omega)
              _ x (le_refl _) (List.all_eq_true.mp hgt' x hx) v hvx
          · have hgt' : sargs.any (fun sa =>
                termsIdentical sa (Term.app g targs)
                  || GTb prec sa (Term.app g targs)) = true := hgt
            obtain ⟨y, hy, hval⟩ := List.any_eq_true.mp hgt'
            rcases Bool.or_eq_true_iff.mp hval with h1 | h1
            · have heq : y = Term.app g targs := (termsIdentical_iff _ _).mp h1
              exact hmem y hy (by rw [heq]; exact hv)
            · exact hmem y hy
                (ih (termSize y + termSize (Term.app g targs))
                  (by have := hs y hy; omega) y _ (le_refl _) h1 v hv)
          · have hgt' : sargs.any (fun sa =>
                termsIdentical sa (Term.app g targs)
                  || GTb prec sa (Term.app g targs)) = true := hgt
            obtain ⟨y, hy, hval⟩ := List.any_eq_true.mp hgt'
            rcases Bool.or_eq_true_iff.mp hval with h1 | h1
            · have heq : y = Term.app g targs := (termsIdentical_iff _ _).mp h1
              exact hmem y hy (by rw [heq]; exact hv)
            · exact hmem y hy
                (ih (termSize y + termSize (Term.app g targs))
                  (by have := hs y hy; omega) y _ (le_refl _) h1 v hv)

theorem listFirstDiff : ∀ (l1 l2 : List Term), l1.length = l2.length → l1 ≠ l2 →
    ∃ P a as b bs, l1 = P ++ a :: as ∧ l2 = P ++ b :: bs ∧ a ≠ b := by
  intro l1
  induction l1 with
  | nil =>
    intro l2 hlen hne
    cases l2 with
    | nil => exact absurd rfl hne
    | cons y ys => simp at hlen
  | cons x xs ih =>
    intro l2 hlen hne
    cases l2 with
    | nil => simp at hlen
    | cons y ys =>
      by_cases hxy : x = y
      · subst hxy
        have hys : xs ≠ ys := fun h => hne (by rw [h])
        obtain ⟨P, a, as, b, bs, h1, h2, hab⟩ := ih ys (by simpa using hlen) hys
        exact ⟨x :: P, a, as, b, bs, by rw [h1]; rfl, by rw [h2]; rfl, hab⟩
      · exact ⟨[], x, xs, y, ys, rfl, rfl, hxy⟩

theorem termSize_lt_of_mem {a : Term} {f : Nat} {args : List Term} (h : a ∈ args) :
    termSize a < termSize (Term.app f args) := by
  have := termSize_le_listSize args a h
  rw [termSize_app]
  omega

/-- Subterm property of the LRPO: a well-formed term is greater than
each of its proper subterms (needs arity coherence and a defined,
injective precedence). -/
theorem GTb_psub (prec : List (Nat × Nat)) (pv ar : Nat → Nat)
    (hinj : ∀ f g, pv f = pv g → f = g) :
    ∀ (k1 : Nat) (s : Term), termSize s ≤ k1 → WfT prec pv ar s →
    ∀ (k2 : Nat) (w : Term), termSize w ≤ k2 → PSub w s → GTb prec s w = true := by
  intro k1
  induction k1 using Nat.strong_induction_on with
  | _ k1 ih1 =>
    intro s hk1 hWfs k2
    induction k2 using Nat.strong_induction_on with
    | _ k2 ih2 =>
      intro w hk2 hsub
      cases s with
      | var x => cases hsub
      | app f sargs =>
        obtain ⟨c, hc, hwc⟩ : ∃ c ∈ sargs, w = c ∨ PSub w c := by
          cases hsub with
          | arg hm => exact ⟨w, hm, Or.inl rfl⟩
          | deep hm hsub' => exact ⟨_, hm, Or.inr hsub'⟩
        cases w with
        | var v =>
          rw [GTb_app_var]
          exact PSub_var_occurs hsub
        | app r wargs =>
          have hWfw : WfT prec pv ar (Term.app r wargs) := WfT_sub hsub hWfs
          have hpsubS : ∀ x ∈ wargs, PSub x (Term.app f sargs) := by
            intro x hx
            have hxw : PSub x (Term.app r wargs) := PSub.arg hx
            rcases hwc with heq | hpc
            · exact PSub.deep hc (heq ▸ hxw)
            · exact PSub.deep hc (PSub_trans hxw hpc)
          have hxsz : ∀ x ∈ wargs, termSize x < k2 := by
            intro x hx
            have := termSize_lt_of_mem (f := r) hx
            omega
          rw [GTb_app_app]
          by_cases hfr : f = r
          · subst hfr
            have hlen : sargs.length = wargs.length := by
              rw [WfT_root_arity hWfs, WfT_root_arity hWfw]
            rw [if_pos (by simp [hlen])]
            refine (lexAux_iff (GTb prec) _ _ sargs wargs).mpr ?_
            have hne : sargs ≠ wargs := by
              intro h
              have : PSub (Term.app f wargs) (Term.app f sargs) := hsub
              rw [h] at this
              exact absurd (PSub_size_lt this) (lt_irrefl _)
            obtain ⟨P, a, as, b, bs, hl1, hl2, hab⟩ := listFirstDiff sargs wargs hlen hne
            have hamem : a ∈ sargs := by
              rw [hl1]; exact List.mem_append.mpr (Or.inr (List.mem_cons_self a as))
            have hbmem : b ∈ wargs := by
              rw [hl2]; exact List.mem_append.mpr (Or.inr (List.mem_cons_self b bs))
            refine ⟨P, a, as, b, bs, hl1, hl2, hab, ?_⟩
            by_cases hgab : GTb prec a b = true
            · refine Or.inl ⟨hgab, ?_⟩
              intro x hx
              have hxw : x ∈ wargs := by
                rw [hl2]; exact List.mem_append.mpr (Or.inr (List.mem_cons_of_mem b hx))
              exact ih2 (termSize x) (hxsz x hxw) x (le_refl _) (hpsubS x hxw)
            · refine Or.inr ⟨Bool.eq_false_iff.mpr hgab, ?_⟩
              have hc0 := hc
              rw [hl1] at hc
              rcases List.mem_append.mp hc with hcP | hccons
              · exfalso
                have hcw : c ∈ wargs := by
                  rw [hl2]; exact List.mem_append.mpr (Or.inl hcP)
                have : PSub (Term.app f wargs) (Term.app f wargs) := by
                  rcases hwc with heq | hpc
                  · exact heq ▸ PSub.arg (heq ▸ hcw)
                  · exact PSub.deep hcw hpc
                exact absurd (PSub_size_lt this) (lt_irrefl _)
              · rcases List.mem_cons.mp hccons with rfl | hcas
                · exfalso
                  have hpba : PSub b c := by
                    have hbw : PSub b (Term.app f wargs) := PSub.arg hbmem
                    rcases hwc with heq | hpc
                    · exact heq ▸ hbw
                    · exact PSub_trans hbw hpc
                  have : GTb prec c b = true :=
                    ih1 (termSize c) (by have := termSize_lt_of_mem (f := f) hamem; omega)
                      c (le_refl _) (WfT_arg hWfs hamem)
                      (termSize b) b (le_refl _) hpba
                  exact hgab this
                · refine ⟨c, hcas, ?_⟩
                  rcases hwc with heq | hpc
                  · exact Or.inl heq.symm
                  · refine Or.inr ?_
                    exact ih1 (termSize c) (by have := termSize_lt_of_mem (f := f) hc0; omega)
                      c (le_refl _) (WfT_arg hWfs hc0)
                      (termSize (Term.app f wargs)) _ (le_refl _) hpc
          · rw [if_neg (by simp [hfr])]
            rw [symPrecedence_char prec pv (WfT_root_prec hWfs) (WfT_root_prec hWfw)
              (hinj f r) hfr]
            by_cases hlt : pv f < pv r
            · rw [if_pos hlt]
              show wargs.all (fun ta => GTb prec (Term.app f sargs) ta) = true
              refine List.all_eq_true.mpr ?_
              intro x hx
              exact ih2 (termSize x) (hxsz x hx) x (le_refl _) (hpsubS x hx)
            · rw [if_neg hlt]
              show sargs.any (fun sa => termsIdentical sa (Term.app r wargs)
                || GTb prec sa (Term.app r wargs)) = true
              refine List.any_eq_true.mpr ⟨c, hc, ?_⟩
              rcases hwc with heq | hpc
              · exact Bool.or_eq_true_iff.mpr
                  (Or.inl ((termsIdentical_iff _ _).mpr heq.symm))
              · refine Bool.or_eq_true_iff.mpr (Or.inr ?_)
                exact ih1 (termSize c) (by have := termSize_lt_of_mem (f := f) hc; omega)
                  c (le_refl _) (WfT_arg hWfs hc)
                  (termSize (Term.app r wargs)) _ (le_refl _) hpc

/-- A proper subterm is never LRPO-greater than the term containing it. -/
theorem GTb_sub_not (prec : List (Nat × Nat)) :
    ∀ (k1 : Nat) (u : Term), termSize u ≤ k1 →
    ∀ (k2 : Nat) (x : Term), termSize x ≤ k2 → PSub x u →
      GTb prec x u = true → False := by
  intro k1
  induction k1 using Nat.strong_induction_on with
  | _ k1 ih1 =>
    intro u hk1 k2
    induction k2 using Nat.strong_induction_on with
    | _ k2 ih2 =>
      intro x hk2 hsub hgt
      cases x with
      | var v => exact absurd (GTb_var prec v u ▸ hgt) Bool.false_ne_true
      | app f xargs =>
        cases u with
        | var w => cases hsub
        | app h uargs =>
          obtain ⟨c, hc, hwc⟩ : ∃ c ∈ uargs, Term.app f xargs = c
              ∨ PSub (Term.app f xargs) c := by
            cases hsub with
            | arg hm => exact ⟨_, hm, Or.inl rfl⟩
            | deep hm hsub' => exact ⟨_, hm, Or.inr hsub'⟩
          have hPyu : ∀ y ∈ xargs, PSub y (Term.app h uargs) := by
            intro y hy
            have hyx : PSub y (Term.app f xargs) := PSub.arg hy
            rcases hwc with heq | hpc
            · exact PSub.deep hc (heq ▸ hyx)
            · exact PSub.deep hc (PSub_trans hyx hpc)
          have hxc : ∀ {d : Term}, d ∈ uargs →
              (Term.app f xargs = d ∨ PSub (Term.app f xargs) d) →
              GTb prec (Term.app f xargs) d = true → False := by
            intro d hd hxd hg
            rcases hxd with heq | hpd
            · rw [heq] at hg
              exact absurd (GTb_irrefl prec d ▸ hg) Bool.false_ne_true
            · exact ih1 (termSize d) (by have := termSize_lt_of_mem (f := h) hd; omega)
                d (le_refl _) (termSize (Term.app f xargs)) _ (le_refl _) hpd hg
          rw [GTb_app_app] at hgt
          by_cases hcnd : (f == h && xargs.length == uargs.length) = true
          · rw [if_pos hcnd] at hgt
            obtain ⟨P, a, as, b, bs, hl1, hl2, hab, hbr⟩ :=
              (lexAux_iff (GTb prec) _ _ xargs uargs).mp hgt
            rcases hbr with ⟨hgab, hall⟩ | ⟨_, y, hy, hyv⟩
            · have hc0 := hc
              rw [hl2] at hc
              rcases List.mem_append.mp hc with hcP | hccons
              · have hcx : c ∈ xargs := by
                  rw [hl1]; exact List.mem_append.mpr (Or.inl hcP)
                have : PSub (Term.app f xargs) (Term.app f xargs) := by
                  rcases hwc with heq | hpc
                  · exact heq ▸ PSub.arg (heq ▸ hcx)
                  · exact PSub.deep hcx hpc
                exact absurd (PSub_size_lt this) (lt_irrefl _)
              · rcases List.mem_cons.mp hccons with rfl | hcbs
                · have hamem : a ∈ xargs := by
                    rw [hl1]
                    exact List.mem_append.mpr (Or.inr (List.mem_cons_self a as))
                  have hpab : PSub a c := by
                    have hax : PSub a (Term.app f xargs) := PSub.arg hamem
                    rcases hwc with heq | hpc
                    · exact heq ▸ hax
                    · exact PSub_trans hax hpc
                  exact ih1 (termSize c)
                    (by have := termSize_lt_of_mem (f := h) hc0; omega)
                    c (le_refl _) (termSize a) a (le_refl _) hpab hgab
                · have hcu : c ∈ uargs := hc0
                  exact hxc hcu hwc (hall c hcbs)
            · have hymem : y ∈ xargs := by
                rw [hl1]
                exact List.mem_append.mpr (Or.inr (List.mem_cons_of_mem a hy))
              have hpyu : PSub y (Term.app h uargs) := hPyu y hymem
              rcases hyv with heq | hgy
              · rw [heq] at hpyu
                exact absurd (PSub_size_lt hpyu) (lt_irrefl _)
              · exact ih2 (termSize y)
                  (by have := termSize_lt_of_mem (f := f) hymem; omega)
                  y (le_refl _) hpyu hgy
          · rw [if_neg hcnd] at hgt
            cases hp : symPrecedence prec f h <;> rw [hp] at hgt
            · exact absurd hgt Bool.false_ne_true
            · have hgt' : uargs.all (fun ta => GTb prec (Term.app f xargs) ta) = true := hgt
              exact hxc hc hwc (List.all_eq_true.mp hgt' c hc)
            · have hgt' : xargs.any (fun sa => termsIdentical sa (Term.app h uargs)
                  || GTb prec sa (Term.app h uargs)) = true := hgt
              obtain ⟨y, hy, hval⟩ := List.any_eq_true.mp hgt'
              have hpyu : PSub y (Term.app h uargs) := hPyu y hy
              rcases Bool.or_eq_true_iff.mp hval with h1 | h1
              · have heq : y = Term.app h uargs := (termsIdentical_iff _ _).mp h1
                rw [heq] at hpyu
                exact absurd (PSub_size_lt hpyu) (lt_irrefl _)
              · exact ih2 (termSize y) (by have := termSize_lt_of_mem (f := f) hy; omega)
                  y (le_refl _) hpyu h1
            · have hgt' : xargs.any (fun sa => termsIdentical sa (Term.app h uargs)
                  || GTb prec sa (Term.app h uargs)) = true := hgt
              obtain ⟨y, hy, hval⟩ := List.any_eq_true.mp hgt'
              have hpyu : PSub y (Term.app h uargs) := hPyu y hy
              rcases Bool.or_eq_true_iff.mp hval with h1 | h1
              · have heq : y = Term.app h uargs := (termsIdentical_iff _ _).mp h1
                rw [heq] at hpyu
                exact absurd (PSub_size_lt hpyu) (lt_irrefl _)
              · exact ih2 (termSize y) (by have := termSize_lt_of_mem (f := f) hy; omega)
                  y (le_refl _) hpyu h1

/-- Mutual helper: (δ) anything greater than `u` is greater than each
proper subterm of `u`; (α) an application is greater than anything some
argument of it equals or exceeds. -/
theorem GTb_alpha_delta (prec : List (Nat × Nat)) (pv ar : Nat → Nat)
    (hinj : ∀ f g, pv f = pv g → f = g) :
    ∀ n : Nat,
      (∀ x u w, termSize x + termSize u + termSize w ≤ n →
        WfT prec pv ar x → WfT prec pv ar u →
        GTb prec x u = true → PSub w u → GTb prec x w = true)
      ∧ (∀ f xargs t, termSize (Term.app f xargs) + 2 * termSize t ≤ n →
        WfT prec pv ar (Term.app f xargs) → WfT prec pv ar t →
        (∃ y ∈ xargs, y = t ∨ GTb prec y t = true) →
        GTb prec (Term.app f xargs) t = true) := by
  intro n
  induction n using Nat.strong_induction_on with
  | _ n ihn =>
    constructor
    · -- δ
      intro x u w hn hWfx hWfu hgt hsub
      have hwu : termSize w < termSize u := PSub_size_lt hsub
      cases x with
      | var v => exact absurd (GTb_var prec v u ▸ hgt) Bool.false_ne_true
      | app f xargs =>
        cases u with
        | var v0 => cases hsub
        | app h uargs =>
          have hWfw : WfT prec pv ar w := WfT_sub hsub hWfu
          cases w with
          | var v =>
            rw [GTb_app_var]
            exact GTb_vars prec (termSize (Term.app f xargs) + termSize (Term.app h uargs))
              _ _ (le_refl _) hgt v (PSub_var_occurs hsub)
          | app r wargs =>
            obtain ⟨c, hc, hwc⟩ : ∃ c ∈ uargs, Term.app r wargs = c
                ∨ PSub (Term.app r wargs) c := by
              cases hsub with
              | arg hm => exact ⟨_, hm, Or.inl rfl⟩
              | deep hm hsub' => exact ⟨_, hm, Or.inr hsub'⟩
            -- from GTb x c, conclude GTb x w
            have hfromc : ∀ {d : Term}, d ∈ uargs →
                (Term.app r wargs = d ∨ PSub (Term.app r wargs) d) →
                GTb prec (Term.app f xargs) d = true →
                GTb prec (Term.app f xargs) (Term.app r wargs) = true := by
              intro d hd hwd hg
              rcases hwd with heq | hpd
              · rw [heq]; exact hg
              · have hdu := termSize_lt_of_mem (f := h) hd
                exact (ihn (termSize (Term.app f xargs) + termSize d
                    + termSize (Term.app r wargs)) (by omega)).1
                  (Term.app f xargs) d (Term.app r wargs) (le_refl _)
                  hWfx (WfT_arg hWfu hd) hg hpd
            -- from y ∈ xargs with y ≥ u, conclude GTb x w
            have hfromy : ∀ {y : Term}, y ∈ xargs →
                (y = Term.app h uargs ∨ GTb prec y (Term.app h uargs) = true) →
                GTb prec (Term.app f xargs) (Term.app r wargs) = true := by
              intro y hy hyv
              have hyx := termSize_lt_of_mem (f := f) hy
              rcases hyv with heq | hgy
              · have hpwx : PSub (Term.app r wargs) (Term.app f xargs) := by
                  have hpwy : PSub (Term.app r wargs) y := by rw [heq]; exact hsub
                  exact PSub.deep hy hpwy
                exact GTb_psub prec pv ar hinj (termSize (Term.app f xargs)) _
                  (le_refl _) hWfx (termSize (Term.app r wargs)) _ (le_refl _) hpwx
              · have hgyw : GTb prec y (Term.app r wargs) = true :=
                  (ihn (termSize y + termSize (Term.app h uargs)
                      + termSize (Term.app r wargs)) (by omega)).1
                    y _ _ (le_refl _) (WfT_arg hWfx hy) hWfu hgy hsub
                exact (ihn (termSize (Term.app f xargs)
                    + 2 * termSize (Term.app r wargs)) (by omega)).2
                  f xargs (Term.app r wargs) (le_refl _) hWfx hWfw
                  ⟨y, hy, Or.inr hgyw⟩
            rw [GTb_app_app] at hgt
            by_cases hcnd : (f == h && xargs.length == uargs.length) = true
            · rw [if_pos hcnd] at hgt
              obtain ⟨P, a, as, b, bs, hl1, hl2, hab, hbr⟩ :=
                (lexAux_iff (GTb prec) _ _ xargs uargs).mp hgt
              rcases hbr with ⟨hgab, hall⟩ | ⟨_, y, hy, hyv⟩
              · have hc0 := hc
                rw [hl2] at hc
                rcases List.mem_append.mp hc with hcP | hccons
                · have hcx : c ∈ xargs := by
                    rw [hl1]; exact List.mem_append.mpr (Or.inl hcP)
                  have hpwx : PSub (Term.app r wargs) (Term.app f xargs) := by
                    rcases hwc with heq | hpc
                    · rw [heq]; exact PSub.arg hcx
                    · exact PSub.deep hcx hpc
                  exact GTb_psub prec pv ar hinj (termSize (Term.app f xargs)) _
                    (le_refl _) hWfx (termSize (Term.app r wargs)) _ (le_refl _) hpwx
                · rcases List.mem_cons.mp hccons with rfl | hcbs
                  · -- c = b, the first difference on the right
                    have hamem : a ∈ xargs := by
                      rw [hl1]
                      exact List.mem_append.mpr (Or.inr (List.mem_cons_self a as))
                    have hcu := termSize_lt_of_mem (f := h) hc0
                    have hax := termSize_lt_of_mem (f := f) hamem
                    have hgaw : GTb prec a (Term.app r wargs) = true := by
                      rcases hwc with heq | hpc
                      · rw [heq]; exact hgab
                      · exact (ihn (termSize a + termSize c
                            + termSize (Term.app r wargs)) (by omega)).1
                          a c (Term.app r wargs) (le_refl _)
                          (WfT_arg hWfx hamem) (WfT_arg hWfu hc0) hgab hpc
                    exact (ihn (termSize (Term.app f xargs)
                        + 2 * termSize (Term.app r wargs)) (by omega)).2
                      f xargs (Term.app r wargs) (le_refl _) hWfx hWfw
                      ⟨a, hamem, Or.inr hgaw⟩
                  · exact hfromc hc0 hwc (hall c hcbs)
              · have hymem : y ∈ xargs := by
                  rw [hl1]
                  exact List.mem_append.mpr (Or.inr (List.mem_cons_of_mem a hy))
                exact hfromy hymem hyv
            · rw [if_neg hcnd] at hgt
              cases hp : symPrecedence prec f h <;> rw [hp] at hgt
              · exact absurd hgt Bool.false_ne_true
              · have hgt' : uargs.all
                    (fun ta => GTb prec (Term.app f xargs) ta) = true := hgt
                exact hfromc hc hwc (List.all_eq_true.mp hgt' c hc)
              · have hgt' : xargs.any (fun sa => termsIdentical sa (Term.app h uargs)
                    || GTb prec sa (Term.app h uargs)) = true := hgt
                obtain ⟨y, hy, hval⟩ := List.any_eq_true.mp hgt'
                rcases Bool.or_eq_true_iff.mp hval with h1 | h1
                · exact hfromy hy (Or.inl ((termsIdentical_iff _ _).mp h1))
                · exact hfromy hy (Or.inr h1)
              · have hgt' : xargs.any (fun sa => termsIdentical sa (Term.app h uargs)
                    || GTb prec sa (Term.app h uargs)) = true := hgt
                obtain ⟨y, hy, hval⟩ := List.any_eq_true.mp hgt'
                rcases Bool.or_eq_true_iff.mp hval with h1 | h1
                · exact hfromy hy (Or.inl ((termsIdentical_iff _ _).mp h1))
                · exact hfromy hy (Or.inr h1)
    · -- α
      intro f xargs t hn hWfx hWft hex
      obtain ⟨y, hy, hyv⟩ := hex
      have hyx := termSize_lt_of_mem (f := f) hy
      cases t with
      | var v =>
        rw [GTb_app_var]
        have hocc : varOccurs v y = true := by
          rcases hyv with heq | hgy
          · rw [heq]; simp [varOccurs]
          · cases y with
            | var z => exact absurd (GTb_var prec z _ ▸ hgy) Bool.false_ne_true
            | app fy ya =>
              rw [GTb_app_var] at hgy
              exact hgy
        exact varOccursList_of_mem hy hocc
      | app g targs =>
        -- from any later-argument witness, fill the all-condition GTb x m
        have hallm : ∀ m ∈ targs, GTb prec (Term.app f xargs) m = true := by
          intro m hm
          have hmt := termSize_lt_of_mem (f := g) hm
          rcases hyv with heq | hgy
          · have hpmx : PSub m (Term.app f xargs) := by
              have : PSub m (Term.app g targs) := PSub.arg hm
              exact PSub.deep hy (by rw [heq]; exact this)
            exact GTb_psub prec pv ar hinj (termSize (Term.app f xargs)) _
              (le_refl _) hWfx (termSize m) _ (le_refl _) hpmx
          · have hgym : GTb prec y m = true :=
              (ihn (termSize y + termSize (Term.app g targs) + termSize m)
                  (by omega)).1
                y _ m (le_refl _) (WfT_arg hWfx hy) hWft hgy (PSub.arg hm)
            exact (ihn (termSize (Term.app f xargs) + 2 * termSize m) (by omega)).2
              f xargs m (le_refl _) hWfx (WfT_arg hWft hm) ⟨y, hy, Or.inr hgym⟩
        rw [GTb_app_app]
        by_cases hfg : f = g
        · subst hfg
          have hlen : xargs.length = targs.length := by
            rw [WfT_root_arity hWfx, WfT_root_arity hWft]
          rw [if_pos (by simp [hlen])]
          refine (lexAux_iff (GTb prec) _ _ xargs targs).mpr ?_
          have hne : xargs ≠ targs := by
            intro hxt
            have hpyx : PSub y (Term.app f xargs) := PSub.arg hy
            rcases hyv with heq | hgy
            · rw [hxt, ← heq] at hpyx
              exact absurd (PSub_size_lt hpyx) (lt_irrefl _)
            · rw [hxt] at hpyx
              exact GTb_sub_not prec (termSize (Term.app f targs)) _ (le_refl _)
                (termSize y) y (le_refl _) hpyx hgy
          obtain ⟨P, a, as, b, bs, hl1, hl2, hab⟩ := listFirstDiff xargs targs hlen hne
          have hamem : a ∈ xargs := by
            rw [hl1]; exact List.mem_append.mpr (Or.inr (List.mem_cons_self a as))
          have hbmem : b ∈ targs := by
            rw [hl2]; exact List.mem_append.mpr (Or.inr (List.mem_cons_self b bs))
          refine ⟨P, a, as, b, bs, hl1, hl2, hab, ?_⟩
          by_cases hgab : GTb prec a b = true
          · refine Or.inl ⟨hgab, ?_⟩
            intro m hm
            exact hallm m (by
              rw [hl2]; exact List.mem_append.mpr (Or.inr (List.mem_cons_of_mem b hm)))
          · refine Or.inr ⟨Bool.eq_false_iff.mpr hgab, ?_⟩
            have hy0 := hy
            rw [hl1] at hy
            rcases List.mem_append.mp hy with hyP | hycons
            · exfalso
              have hyt : y ∈ targs := by
                rw [hl2]; exact List.mem_append.mpr (Or.inl hyP)
              have hpyt : PSub y (Term.app f targs) := PSub.arg hyt
              rcases hyv with heq | hgy
              · rw [heq] at hpyt
                exact absurd (PSub_size_lt hpyt) (lt_irrefl _)
              · exact GTb_sub_not prec (termSize (Term.app f targs)) _ (le_refl _)
                  (termSize y) y (le_refl _) hpyt hgy
            · rcases List.mem_cons.mp hycons with rfl | hyas
              · exfalso
                have hbt := termSize_lt_of_mem (f := f) hbmem
                rcases hyv with heq | hgy
                · have hpbt : PSub b (Term.app f targs) := PSub.arg hbmem
                  have : GTb prec y b = true := by
                    rw [heq]
                    exact GTb_psub prec pv ar hinj (termSize (Term.app f targs)) _
                      (le_refl _) hWft (termSize b) _ (le_refl _) hpbt
                  exact hgab this
                · have : GTb prec y b = true :=
                    (ihn (termSize y + termSize (Term.app f targs) + termSize b)
                        (by omega)).1
                      y _ b (le_refl _) (WfT_arg hWfx hy0) hWft hgy (PSub.arg hbmem)
                  exact hgab this
              · exact ⟨y, hyas, hyv⟩
        · rw [if_neg (by simp [hfg])]
          rw [symPrecedence_char prec pv (WfT_root_prec hWfx) (WfT_root_prec hWft)
            (hinj f g) hfg]
          by_cases hlt : pv f < pv g
          · rw [if_pos hlt]
            show targs.all (fun ta => GTb prec (Term.app f xargs) ta) = true
            exact List.all_eq_true.mpr hallm
          · rw [if_neg hlt]
            show xargs.any (fun sa => termsIdentical sa (Term.app g targs)
              || GTb prec sa (Term.app g targs)) = true
            refine List.any_eq_true.mpr ⟨y, hy, ?_⟩
            rcases hyv with heq | hgy
            · exact Bool.or_eq_true_iff.mpr (Or.inl ((termsIdentical_iff _ _).mpr heq))
            · exact Bool.or_eq_true_iff.mpr (Or.inr hgy)

theorem twoDecomp : ∀ (P : List Term) (Q : List Term) (b c : Term) (bs cs : List Term),
    P ++ b :: bs = Q ++ c :: cs →
    (P = Q ∧ b = c ∧ bs = cs)
    ∨ (∃ mid, Q = P ++ b :: mid ∧ bs = mid ++ c :: cs)
    ∨ (∃ mid, P = Q ++ c :: mid ∧ cs = mid ++ b :: bs) := by
  intro P
  induction P with
  | nil =>
    intro Q b c bs cs h
    cases Q with
    | nil =>
      simp only [List.nil_append] at h
      injection h with h1 h2
      exact Or.inl ⟨rfl, h1, h2⟩
    | cons q Q' =>
      simp only [List.nil_append, List.cons_append] at h
      injection h with h1 h2
      exact Or.inr (Or.inl ⟨Q', by rw [h1]; rfl, h2⟩)
  | cons p P' ih =>
    intro Q b c bs cs h
    cases Q with
    | nil =>
      simp only [List.nil_append, List.cons_append] at h
      injection h with h1 h2
      exact Or.inr (Or.inr ⟨P', by rw [h1]; rfl, h2.symm⟩)
    | cons q Q' =>
      simp only [List.cons_append] at h
      injection h with h1 h2
      rcases ih Q' b c bs cs h2 with ⟨hPQ, hbc, hbscs⟩ | ⟨mid, hQ, hbs⟩ | ⟨mid, hP, hcs⟩
      · exact Or.inl ⟨by rw [h1, hPQ], hbc, hbscs⟩
      · exact Or.inr (Or.inl ⟨mid, by rw [h1, hQ]; rfl, hbs⟩)
      · exact Or.inr (Or.inr ⟨mid, by rw [← h1, hP]; rfl, hcs⟩)

/-- Asymmetry of the LRPO on well-formed terms. -/
theorem GTb_asym (prec : List (Nat × Nat)) (pv ar : Nat → Nat)
    (hinj : ∀ f g, pv f = pv g → f = g) :
    ∀ (k : Nat) (s t : Term), termSize s + termSize t ≤ k →
      WfT prec pv ar s → WfT prec pv ar t →
      GTb prec s t = true → GTb prec t s = true → False := by
  have hδ : ∀ x u w, WfT prec pv ar x → WfT prec pv ar u →
      GTb prec x u = true → PSub w u → GTb prec x w = true := by
    intro x u w hwx hwu hg hs
    exact (GTb_alpha_delta prec pv ar hinj
      (termSize x + termSize u + termSize w)).1 x u w (le_refl _) hwx hwu hg hs
  have hS : ∀ u x, PSub x u → GTb prec x u = true → False := by
    intro u x hs hg
    exact GTb_sub_not prec (termSize u) u (le_refl _) (termSize x) x (le_refl _) hs hg
  intro k
  induction k using Nat.strong_induction_on with
  | _ k ih =>
    intro s t hk hWfs hWft hst hts
    have hst0 := hst
    have hts0 := hts
    cases s with
    | var v => exact absurd (GTb_var prec v t ▸ hst) Bool.false_ne_true
    | app f sargs =>
      cases t with
      | var w => exact absurd (GTb_var prec w _ ▸ hts) Bool.false_ne_true
      | app g targs =>
        have hssz : ∀ a ∈ sargs, termSize a < termSize (Term.app f sargs) :=
          fun a ha => termSize_lt_of_mem ha
        have htsz : ∀ b ∈ targs, termSize b < termSize (Term.app g targs) :=
          fun b hb => termSize_lt_of_mem hb
        rw [GTb_app_app] at hst hts
        by_cases hfg : f = g
        · subst hfg
          by_cases hcnd : (f == f && sargs.length == targs.length) = true
          · rw [if_pos hcnd] at hst
            rw [if_pos (by simp at hcnd ⊢; omega)] at hts
            obtain ⟨P1, a, as, b, bs, hs1, ht1, hab, hbr1⟩ :=
              (lexAux_iff (GTb prec) _ _ sargs targs).mp hst
            obtain ⟨P2, c, cs, d, ds, ht2, hs2, hcd, hbr2⟩ :=
              (lexAux_iff (GTb prec) _ _ targs sargs).mp hts
            -- line up the two first-difference decompositions
            have hsd : P1 ++ a :: as = P2 ++ d :: ds := by rw [← hs1, ← hs2]
            rcases twoDecomp P1 P2 a d as ds hsd with
              ⟨hPQ, had, hasds⟩ | ⟨mid, hQ, hbs⟩ | ⟨mid, hP, hcs⟩
            · -- same position
              subst hPQ
              have htt : b :: bs = c :: cs := by
                have : P1 ++ b :: bs = P1 ++ c :: cs := by rw [← ht1, ← ht2]
                exact List.append_cancel_left this
              injection htt with hbc hbscs
              subst hbc; subst hbscs; subst had; subst hasds
              -- diff pairs are (a, b) for s,t and (b, a) for t,s
              have hamem : a ∈ sargs := by
                rw [hs1]; exact List.mem_append.mpr (Or.inr (List.mem_cons_self a as))
              have hbmem : b ∈ targs := by
                rw [ht1]; exact List.mem_append.mpr (Or.inr (List.mem_cons_self b bs))
              rcases hbr1 with ⟨hgab, hall1⟩ | ⟨_, y, hy, hyv⟩
              · rcases hbr2 with ⟨hgba, _⟩ | ⟨_, z, hz, hzv⟩
                · exact ih (termSize a + termSize b)
                    (by have := hssz a hamem; have := htsz b hbmem; omega)
                    a b (le_refl _) (WfT_arg hWfs hamem) (WfT_arg hWft hbmem)
                    hgab hgba
                · have hzmem : z ∈ targs := by
                    rw [ht1]
                    exact List.mem_append.mpr (Or.inr (List.mem_cons_of_mem b hz))
                  have hsz : GTb prec (Term.app f sargs) z = true := hall1 z hz
                  rcases hzv with heq | hgz
                  · rw [heq] at hsz
                    exact absurd (GTb_irrefl prec _ ▸ hsz) Bool.false_ne_true
                  · exact ih (termSize (Term.app f sargs) + termSize z)
                      (by have := htsz z hzmem; omega)
                      _ z (le_refl _) hWfs (WfT_arg hWft hzmem) hsz hgz
              · rcases hbr2 with ⟨hgba, hall2⟩ | ⟨_, z, hz, hzv⟩
                · have hymem : y ∈ sargs := by
                    rw [hs1]
                    exact List.mem_append.mpr (Or.inr (List.mem_cons_of_mem a hy))
                  have hty : GTb prec (Term.app f targs) y = true := hall2 y hy
                  rcases hyv with heq | hgy
                  · rw [heq] at hty
                    exact absurd (GTb_irrefl prec _ ▸ hty) Bool.false_ne_true
                  · exact ih (termSize y + termSize (Term.app f targs))
                      (by have := hssz y hymem; omega)
                      y _ (le_refl _) (WfT_arg hWfs hymem) hWft hgy hty
                · have hymem : y ∈ sargs := by
                    rw [hs1]
                    exact List.mem_append.mpr (Or.inr (List.mem_cons_of_mem a hy))
                  have hzmem : z ∈ targs := by
                    rw [ht1]
                    exact List.mem_append.mpr (Or.inr (List.mem_cons_of_mem b hz))
                  rcases hyv with heq | hgy
                  · exact hS _ _ (by rw [← heq]; exact PSub.arg hymem) hts0
                  · rcases hzv with heq2 | hgz
                    · exact hS _ _ (by rw [← heq2]; exact PSub.arg hzmem) hst0
                    · have hgyz : GTb prec y z = true :=
                        hδ y (Term.app f targs) z (WfT_arg hWfs hymem) hWft hgy
                          (PSub.arg hzmem)
                      have hgzy : GTb prec z y = true :=
                        hδ z (Term.app f sargs) y (WfT_arg hWft hzmem) hWfs hgz
                          (PSub.arg hymem)
                      exact ih (termSize y + termSize z)
                        (by have := hssz y hymem; have := htsz z hzmem; omega)
                        y z (le_refl _) (WfT_arg hWfs hymem) (WfT_arg hWft hzmem)
                        hgyz hgzy
            · -- (s,t) difference strictly earlier: contradiction
              have : P1 ++ b :: bs = P1 ++ a :: (mid ++ c :: cs) := by
                rw [← ht1, ht2, hQ]
                simp
              have h2 := List.append_cancel_left this
              injection h2 with hba _
              exact hab hba.symm
            · -- (t,s) difference strictly earlier: contradiction
              have : P2 ++ c :: cs = P2 ++ d :: (mid ++ b :: bs) := by
                rw [← ht2, ht1, hP]
                simp
              have h2 := List.append_cancel_left this
              injection h2 with hcd2 _
              exact hcd hcd2
          · rw [if_neg hcnd] at hst
            rw [symPrecedence_same] at hst
            exact absurd hst Bool.false_ne_true
        · rw [if_neg (by simp [hfg])] at hst
          rw [if_neg (by simp [Ne.symm hfg])] at hts
          rw [symPrecedence_char prec pv (WfT_root_prec hWfs) (WfT_root_prec hWft)
            (hinj f g) hfg] at hst
          rw [symPrecedence_char prec pv (WfT_root_prec hWft) (WfT_root_prec hWfs)
            (hinj g f) (Ne.symm hfg)] at hts
          by_cases hlt : pv f < pv g
          · rw [if_pos hlt] at hst
            rw [if_neg (by omega)] at hts
            have hst' : targs.all (fun ta => GTb prec (Term.app f sargs) ta) = true := hst
            have hts' : targs.any (fun sa => termsIdentical sa (Term.app f sargs)
                || GTb prec sa (Term.app f sargs)) = true := hts
            obtain ⟨z, hz, hval⟩ := List.any_eq_true.mp hts'
            have hsz : GTb prec (Term.app f sargs) z = true :=
              List.all_eq_true.mp hst' z hz
            rcases Bool.or_eq_true_iff.mp hval with h1 | h1
            · have heq : z = Term.app f sargs := (termsIdentical_iff _ _).mp h1
              rw [heq] at hsz
              exact absurd (GTb_irrefl prec _ ▸ hsz) Bool.false_ne_true
            · exact ih (termSize (Term.app f sargs) + termSize z)
                (by have := htsz z hz; omega)
                _ z (le_refl _) hWfs (WfT_arg hWft hz) hsz h1
          · have hgf : pv g < pv f := by
              rcases Nat.lt_trichotomy (pv f) (pv g) with h | h | h
              · exact absurd h hlt
              · exact absurd (hinj f g h) hfg
              · exact h
            rw [if_neg (by omega)] at hst
            rw [if_pos hgf] at hts
            have hts' : sargs.all (fun ta => GTb prec (Term.app g targs) ta) = true := hts
            have hst' : sargs.any (fun sa => termsIdentical sa (Term.app g targs)
                || GTb prec sa (Term.app g targs)) = true := hst
            obtain ⟨z, hz, hval⟩ := List.any_eq_true.mp hst'
            have htz : GTb prec (Term.app g targs) z = true :=
              List.all_eq_true.mp hts' z hz
            rcases Bool.or_eq_true_iff.mp hval with h1 | h1
            · have heq : z = Term.app g targs := (termsIdentical_iff _ _).mp h1
              rw [heq] at htz
              exact absurd (GTb_irrefl prec _ ▸ htz) Bool.false_ne_true
            · exact ih (termSize z + termSize (Term.app g targs))
                (by have := hssz z hz; omega)
                z _ (le_refl _) (WfT_arg hWfs hz) hWft h1 htz

/-- Transitivity of the LRPO on well-formed terms (defined precedence
with injective values and coherent arities). -/
theorem GTb_trans (prec : List (Nat × Nat)) (pv ar : Nat → Nat)
    (hinj : ∀ f g, pv f = pv g → f = g) :
    ∀ (k : Nat) (s t u : Term), termSize s + termSize t + 2 * termSize u ≤ k →
      WfT prec pv ar s → WfT prec pv ar t → WfT prec pv ar u →
      GTb prec s t = true → GTb prec t u = true → GTb prec s u = true := by
  have hδ : ∀ x u w, WfT prec pv ar x → WfT prec pv ar u →
      GTb prec x u = true → PSub w u → GTb prec x w = true := by
    intro x u w hwx hwu hg hs
    exact (GTb_alpha_delta prec pv ar hinj
      (termSize x + termSize u + termSize w)).1 x u w (le_refl _) hwx hwu hg hs
  intro k
  induction k using Nat.strong_induction_on with
  | _ k ih =>
    intro s t u hk hWfs hWft hWfu hst htu
    have hst0 := hst
    have htu0 := htu
    cases s with
    | var v => exact absurd (GTb_var prec v t ▸ hst) Bool.false_ne_true
    | app f sargs =>
      cases t with
      | var w => exact absurd (GTb_var prec w u ▸ htu) Bool.false_ne_true
      | app g targs =>
        cases u with
        | var v =>
          rw [GTb_app_var]
          rw [GTb_app_var] at htu
          exact GTb_vars prec
            (termSize (Term.app f sargs) + termSize (Term.app g targs))
            _ _ (le_refl _) hst0 v htu
        | app h uargs =>
          have hslt : ∀ a ∈ sargs, termSize a < termSize (Term.app f sargs) :=
            fun _ hm => termSize_lt_of_mem hm
          have htlt : ∀ b ∈ targs, termSize b < termSize (Term.app g targs) :=
            fun _ hm => termSize_lt_of_mem hm
          have hult : ∀ c ∈ uargs, termSize c < termSize (Term.app h uargs) :=
            fun _ hm => termSize_lt_of_mem hm
          -- every argument of u is below s
          have hallu : ∀ m ∈ uargs, GTb prec (Term.app f sargs) m = true := by
            intro m hm
            have htm : GTb prec (Term.app g targs) m = true :=
              hδ _ _ m hWft hWfu htu0 (PSub.arg hm)
            exact ih (termSize (Term.app f sargs) + termSize (Term.app g targs)
                + 2 * termSize m)
              (by have := hult m hm; omega)
              _ _ m (le_refl _) hWfs hWft (WfT_arg hWfu hm) hst0 htm
          -- a right-argument witness on the (t, u) side finishes directly
          have hH1 : ∀ y ∈ targs,
              (y = Term.app h uargs ∨ GTb prec y (Term.app h uargs) = true) →
              GTb prec (Term.app f sargs) (Term.app h uargs) = true := by
            intro y hy hyv
            have hsy : GTb prec (Term.app f sargs) y = true :=
              hδ _ _ y hWfs hWft hst0 (PSub.arg hy)
            rcases hyv with heq | hgy
            · rw [← heq]; exact hsy
            · exact ih (termSize (Term.app f sargs) + termSize y
                  + 2 * termSize (Term.app h uargs))
                (by have := htlt y hy; omega)
                _ y _ (le_refl _) hWfs (WfT_arg hWft hy) hWfu hsy hgy
          -- a left-argument witness on the (s, t) side finishes directly
          have hH2 : ∀ x ∈ sargs,
              (x = Term.app g targs ∨ GTb prec x (Term.app g targs) = true) →
              GTb prec (Term.app f sargs) (Term.app h uargs) = true := by
            intro x hx hxv
            have hxu : GTb prec x (Term.app h uargs) = true := by
              rcases hxv with heq | hgx
              · rw [heq]; exact htu0
              · exact ih (termSize x + termSize (Term.app g targs)
                    + 2 * termSize (Term.app h uargs))
                  (by have := hslt x hx; omega)
                  x _ _ (le_refl _) (WfT_arg hWfs hx) hWft hWfu hgx htu0
            exact (GTb_alpha_delta prec pv ar hinj
                (termSize (Term.app f sargs) + 2 * termSize (Term.app h uargs))).2
              f sargs _ (le_refl _) hWfs hWfu ⟨x, hx, Or.inr hxu⟩
          -- conclusion in the different-root, higher-precedence shape
          have hfinal : f ≠ h → pv f < pv h →
              GTb prec (Term.app f sargs) (Term.app h uargs) = true := by
            intro hfh hlt
            rw [GTb_app_app, if_neg (by simp [hfh]),
              symPrecedence_char prec pv (WfT_root_prec hWfs) (WfT_root_prec hWfu)
                (hinj f h) hfh,
              if_pos hlt]
            show uargs.all (fun m => GTb prec (Term.app f sargs) m) = true
            exact List.all_eq_true.mpr hallu
          rw [GTb_app_app] at hst htu
          by_cases hc2 : (g == h && targs.length == uargs.length) = true
          · rw [if_pos hc2] at htu
            obtain ⟨hgh, hlen2⟩ : g = h ∧ targs.length = uargs.length := by
              obtain ⟨h1, h2⟩ := Bool.and_eq_true_iff.mp hc2
              exact ⟨beq_iff_eq.mp h1, beq_iff_eq.mp h2⟩
            subst hgh
            obtain ⟨Q, c, cs, d, ds, hQ1, hQ2, hcd, hbr2⟩ :=
              (lexAux_iff (GTb prec) _ _ targs uargs).mp htu
            rcases hbr2 with ⟨hgcd, hallds⟩ | ⟨_, y, hy, hyv⟩
            · -- (t, u) sits in the lexicographic branch with first diff (c, d)
              have hcmem : c ∈ targs := by
                rw [hQ1]; exact List.mem_append.mpr (Or.inr (List.mem_cons_self c cs))
              have hdmem : d ∈ uargs := by
                rw [hQ2]; exact List.mem_append.mpr (Or.inr (List.mem_cons_self d ds))
              by_cases hc1 : (f == g && sargs.length == targs.length) = true
              · rw [if_pos hc1] at hst
                obtain ⟨hfg, hlen1⟩ : f = g ∧ sargs.length = targs.length := by
                  obtain ⟨h1, h2⟩ := Bool.and_eq_true_iff.mp hc1
                  exact ⟨beq_iff_eq.mp h1, beq_iff_eq.mp h2⟩
                subst hfg
                obtain ⟨P, a, as, b, bs, hP1, hP2, hab, hbr1⟩ :=
                  (lexAux_iff (GTb prec) _ _ sargs targs).mp hst
                rcases hbr1 with ⟨hgab, hallbs⟩ | ⟨_, x, hx, hxv⟩
                · -- both lexicographic: case (A)
                  have hamem : a ∈ sargs := by
                    rw [hP1]
                    exact List.mem_append.mpr (Or.inr (List.mem_cons_self a as))
                  have hbmem : b ∈ targs := by
                    rw [hP2]
                    exact List.mem_append.mpr (Or.inr (List.mem_cons_self b bs))
                  rw [GTb_app_app, if_pos (by simp; omega)]
                  refine (lexAux_iff (GTb prec) _ _ sargs uargs).mpr ?_
                  have htt : P ++ b :: bs = Q ++ c :: cs := by rw [← hP2, hQ1]
                  rcases twoDecomp P Q b c bs cs htt with
                    ⟨hPQ, hbc, hbscs⟩ | ⟨mid, hQeq, hbseq⟩ | ⟨mid, hPeq, hcseq⟩
                  · -- same first-difference position
                    subst hPQ; subst hbc; subst hbscs
                    have had : a ≠ d := by
                      intro heq
                      subst heq
                      exact GTb_asym prec pv ar hinj (termSize a + termSize b)
                        a b (le_refl _) (WfT_arg hWfs hamem) (WfT_arg hWft hbmem)
                        hgab hgcd
                    have hgad : GTb prec a d = true :=
                      ih (termSize a + termSize b + 2 * termSize d)
                        (by have := hslt a hamem; have := htlt b hbmem;
                            have := hult d hdmem; omega)
                        a b d (le_refl _) (WfT_arg hWfs hamem) (WfT_arg hWft hbmem)
                        (WfT_arg hWfu hdmem) hgab hgcd
                    refine ⟨P, a, as, d, ds, hP1, hQ2, had, Or.inl ⟨hgad, ?_⟩⟩
                    intro m hm
                    have hmu : m ∈ uargs := by
                      rw [hQ2]
                      exact List.mem_append.mpr (Or.inr (List.mem_cons_of_mem d hm))
                    exact ih (termSize (Term.app f sargs) + termSize (Term.app f targs)
                        + 2 * termSize m)
                      (by have := hult m hmu; omega)
                      _ _ m (le_refl _) hWfs hWft (WfT_arg hWfu hmu) hst0
                      (hallds m hm)
                  · -- (s, t) differs first
                    have hU : uargs = P ++ b :: (mid ++ d :: ds) := by
                      rw [hQ2, hQeq]
                      simp
                    refine ⟨P, a, as, b, mid ++ d :: ds, hP1, hU, hab,
                      Or.inl ⟨hgab, ?_⟩⟩
                    intro m hm
                    rcases List.mem_append.mp hm with hmid | hcons
                    · have hmbs : m ∈ bs := by
                        rw [hbseq]
                        exact List.mem_append.mpr (Or.inl hmid)
                      exact hallbs m hmbs
                    · rcases List.mem_cons.mp hcons with rfl | hds
                      · have hcbs : c ∈ bs := by
                          rw [hbseq]
                          exact List.mem_append.mpr (Or.inr (List.mem_cons_self c cs))
                        have hsc : GTb prec (Term.app f sargs) c = true :=
                          hallbs c hcbs
                        exact ih (termSize (Term.app f sargs) + termSize c
                            + 2 * termSize m)
                          (by have := htlt c hcmem; have := hult m hdmem; omega)
                          _ c m (le_refl _) hWfs (WfT_arg hWft hcmem)
                          (WfT_arg hWfu hdmem) hsc hgcd
                      · have hmu : m ∈ uargs := by
                          rw [hQ2]
                          exact List.mem_append.mpr (Or.inr (List.mem_cons_of_mem d hds))
                        exact ih (termSize (Term.app f sargs)
                            + termSize (Term.app f targs) + 2 * termSize m)
                          (by have := hult m hmu; omega)
                          _ _ m (le_refl _) hWfs hWft (WfT_arg hWfu hmu) hst0
                          (hallds m hds)
                  · -- (t, u) differs first
                    have hS : sargs = Q ++ c :: (mid ++ a :: as) := by
                      rw [hP1, hPeq]
                      simp
                    refine ⟨Q, c, mid ++ a :: as, d, ds, hS, hQ2, hcd,
                      Or.inl ⟨hgcd, ?_⟩⟩
                    intro m hm
                    have hmu : m ∈ uargs := by
                      rw [hQ2]
                      exact List.mem_append.mpr (Or.inr (List.mem_cons_of_mem d hm))
                    exact ih (termSize (Term.app f sargs) + termSize (Term.app f targs)
                        + 2 * termSize m)
                      (by have := hult m hmu; omega)
                      _ _ m (le_refl _) hWfs hWft (WfT_arg hWfu hmu) hst0
                      (hallds m hm)
                · -- (s, t) via a left-argument witness
                  have hxmem : x ∈ sargs := by
                    rw [hP1]
                    exact List.mem_append.mpr (Or.inr (List.mem_cons_of_mem a hx))
                  exact hH2 x hxmem hxv
              · -- (s, t) in a precedence branch, (t, u) lexicographic: g = h
                rw [if_neg hc1] at hst
                have hfg : f ≠ g := by
                  intro heq
                  rw [heq, symPrecedence_same] at hst
                  exact absurd hst Bool.false_ne_true
                rw [symPrecedence_char prec pv (WfT_root_prec hWfs)
                  (WfT_root_prec hWft) (hinj f g) hfg] at hst
                by_cases hlt : pv f < pv g
                · exact hfinal hfg hlt
                · rw [if_neg hlt] at hst
                  have hst' : sargs.any (fun sa =>
                      termsIdentical sa (Term.app g targs)
                        || GTb prec sa (Term.app g targs)) = true := hst
                  obtain ⟨x, hx, hval⟩ := List.any_eq_true.mp hst'
                  rcases Bool.or_eq_true_iff.mp hval with h1 | h1
                  · exact hH2 x hx (Or.inl ((termsIdentical_iff _ _).mp h1))
                  · exact hH2 x hx (Or.inr h1)
            · -- (t, u) via a right-argument witness
              have hymem : y ∈ targs := by
                rw [hQ1]
                exact List.mem_append.mpr (Or.inr (List.mem_cons_of_mem c hy))
              exact hH1 y hymem hyv
          · rw [if_neg hc2] at htu
            cases hp2 : symPrecedence prec g h <;> rw [hp2] at htu
            · exact absurd htu Bool.false_ne_true
            · -- (t, u) all-branch: pv g < pv h
              have hgh : g ≠ h := by
                intro heq
                rw [heq, symPrecedence_same] at hp2
                exact absurd hp2 (by decide)
              have hglt : pv g < pv h := by
                rw [symPrecedence_char prec pv (WfT_root_prec hWft)
                  (WfT_root_prec hWfu) (hinj g h) hgh] at hp2
                by_cases hlt : pv g < pv h
                · exact hlt
                · rw [if_neg hlt] at hp2
                  exact absurd hp2 (by decide)
              by_cases hc1 : (f == g && sargs.length == targs.length) = true
              · -- (s, t) lexicographic: f = g
                have hfg : f = g := by
                  obtain ⟨h1, _⟩ := Bool.and_eq_true_iff.mp hc1
                  exact beq_iff_eq.mp h1
                have hfh : f ≠ h := fun heq => hgh (hfg.symm.trans heq)
                exact hfinal hfh (by rw [hfg]; exact hglt)
              · rw [if_neg hc1] at hst
                have hfg : f ≠ g := by
                  intro heq
                  rw [heq, symPrecedence_same] at hst
                  exact absurd hst Bool.false_ne_true
                rw [symPrecedence_char prec pv (WfT_root_prec hWfs)
                  (WfT_root_prec hWft) (hinj f g) hfg] at hst
                by_cases hlt : pv f < pv g
                · have hfh : f ≠ h := by
                    intro heq
                    rw [heq] at hlt
                    exact lt_irrefl _ (lt_trans hlt hglt)
                  exact hfinal hfh (lt_trans hlt hglt)
                · rw [if_neg hlt] at hst
                  have hst' : sargs.any (fun sa =>
                      termsIdentical sa (Term.app g targs)
                        || GTb prec sa (Term.app g targs)) = true := hst
                  obtain ⟨x, hx, hval⟩ := List.any_eq_true.mp hst'
                  rcases Bool.or_eq_true_iff.mp hval with h1 | h1
                  · exact hH2 x hx (Or.inl ((termsIdentical_iff _ _).mp h1))
                  · exact hH2 x hx (Or.inr h1)
            · -- (t, u) via a right-argument witness (lessThan)
              have htu' : targs.any (fun sa =>
                  termsIdentical sa (Term.app h uargs)
                    || GTb prec sa (Term.app h uargs)) = true := htu
              obtain ⟨y, hy, hval⟩ := List.any_eq_true.mp htu'
              rcases Bool.or_eq_true_iff.mp hval with h1 | h1
              · exact hH1 y hy (Or.inl ((termsIdentical_iff _ _).mp h1))
              · exact hH1 y hy (Or.inr h1)
            · -- (t, u) via a right-argument witness (notComparable)
              have htu' : targs.any (fun sa =>
                  termsIdentical sa (Term.app h uargs)
                    || GTb prec sa (Term.app h uargs)) = true := htu
              obtain ⟨y, hy, hval⟩ := List.any_eq_true.mp htu'
              rcases Bool.or_eq_true_iff.mp hval with h1 | h1
              · exact hH1 y hy (Or.inl ((termsIdentical_iff _ _).mp h1))
              · exact hH1 y hy (Or.inr h1)

/-- C9 (amended): `LRPO::greater` of src/data/ordering.rs is irreflexive
on all terms.  It is transitive provided the compared terms are well
formed — every symbol has a defined precedence, the precedence values
are injective, and every symbol is used at a single arity — and each
pairwise comparison fits under the depth cap (`termSize` sums at most
`MAX_LRPO_DEPTH + 1 = 101`).  Without the injectivity and depth-cap
provisos transitivity fails even on terms whose symbols all have a
defined precedence — see the counterexample theorem. -/
theorem claim_C9 :
    (∀ (prec : List (Nat × Nat)) (t : Term), lrpoGreater prec t t = false)
    ∧ (∀ (prec : List (Nat × Nat)) (pv ar : Nat → Nat) (s t u : Term),
        (∀ f g, pv f = pv g → f = g) →
        WfT prec pv ar s → WfT prec pv ar t → WfT prec pv ar u →
        termSize s + termSize t ≤ 101 → termSize t + termSize u ≤ 101 →
        termSize s + termSize u ≤ 101 →
        lrpoGreater prec s t = true → lrpoGreater prec t u = true →
        lrpoGreater prec s u = true) := by
  constructor
  · intro prec t
    exact lrpoGtF_irrefl prec 100 t
  · intro prec pv ar s t u hinj hWfs hWft hWfu hb1 hb2 hb3 hst htu
    unfold lrpoGreater at hst htu ⊢
    rw [GTb_eq_fuel prec s t 101 hb1] at hst
    rw [GTb_eq_fuel prec t u 101 hb2] at htu
    rw [GTb_eq_fuel prec s u 101 hb3]
    exact GTb_trans prec pv ar hinj
      (termSize s + termSize t + 2 * termSize u) s t u (le_refl _)
      hWfs hWft hWfu hst htu

set_option maxRecDepth 10000 in
/-- C9 counterexample: two failures of transitivity with every symbol's
precedence defined.  First, with two distinct symbols sharing a
precedence value the stubbed multiset case makes `greater` return false:
`f(h(a)) > h(a)` and `h(a) > g(a)` but not `f(h(a)) > g(a)`.  Second,
even with injective precedence values the depth cap breaks it:
`h^60(f(a)) > f(a)` and `f(a) > g^60(a)` each stay within depth 100, but
`h^60(f(a)) > g^60(a)` needs about 120 levels and is cut off. -/
theorem claim_C9_counterexample :
    ((c9prec1.map Prod.fst = [1,2,3,4]
        ∧ lrpoGreater c9prec1 c9s1 c9t1 = true
        ∧ lrpoGreater c9prec1 c9t1 c9u1 = true)
      ∧ lrpoGreater c9prec1 c9s1 c9u1 = false)
    ∧ ((c9prec2.map Prod.fst = [1,2,3,4]
        ∧ lrpoGreater c9prec2 (hchain 60) (hchain 0) = true
        ∧ lrpoGreater c9prec2 (hchain 0) (gchain2 60) = true)
      ∧ lrpoGreater c9prec2 (hchain 60) (gchain2 60) = false) := by
  exact ⟨⟨⟨by decide, by decide, by decide⟩, by decide⟩,
    ⟨⟨by decide, by decide, by decide⟩, by decide⟩⟩

/-- C9 witness: transitivity applied to `f(g(a)) > g(a) > a` under the
precedence `f ↦ 1, g ↦ 2, a ↦ 3` (injective, all defined, coherent
arities, sizes far below the cap). -/
theorem claim_C9_witness :
    ((∀ f g : Nat, (fun n => n) f = (fun n => n) g → f = g)
      ∧ WfT [(1,1),(2,2),(3,3)] (fun n => n) (fun n => if n == 3 then 0 else 1)
          (Term.app 1 [Term.app 2 [Term.app 3 []]])
      ∧ WfT [(1,1),(2,2),(3,3)] (fun n => n) (fun n => if n == 3 then 0 else 1)
          (Term.app 2 [Term.app 3 []])
      ∧ WfT [(1,1),(2,2),(3,3)] (fun n => n) (fun n => if n == 3 then 0 else 1)
          (Term.app 3 [])
      ∧ termSize (Term.app 1 [Term.app 2 [Term.app 3 []]])
          + termSize (Term.app 2 [Term.app 3 []]) ≤ 101
      ∧ lrpoGreater [(1,1),(2,2),(3,3)]
          (Term.app 1 [Term.app 2 [Term.app 3 []]]) (Term.app 2 [Term.app 3 []]) = true
      ∧ lrpoGreater [(1,1),(2,2),(3,3)]
          (Term.app 2 [Term.app 3 []]) (Term.app 3 []) = true)
    ∧ lrpoGreater [(1,1),(2,2),(3,3)]
        (Term.app 1 [Term.app 2 [Term.app 3 []]]) (Term.app 3 []) = true :=
  ⟨⟨fun _ _ h => h, ⟨by decide, by decide⟩, ⟨by decide, by decide⟩,
    ⟨by decide, by decide⟩, by decide, by decide, by decide⟩,
   claim_C9.2 [(1,1),(2,2),(3,3)] (fun n => n) (fun n => if n == 3 then 0 else 1)
     (Term.app 1 [Term.app 2 [Term.app 3 []]]) (Term.app 2 [Term.app 3 []])
     (Term.app 3 []) (fun _ _ h => h) ⟨by decide, by decide⟩ ⟨by decide, by decide⟩
     ⟨by decide, by decide⟩ (by decide) (by decide) (by decide)
     (by decide) (by decide)⟩
